import Mathlib

/-!
Verification of the document reconciliation engine (section parser, preserved
data extractor, merger, banner timestamp rewriter).  The TypeScript source is
embedded shallowly: strings are lists of characters, the JavaScript regular
expressions are translated into explicit backtracking searches, and the
stateful parsing loop becomes a recursion with an explicit state record.
-/

namespace FlightDispatcher

/-- JavaScript `\s` character class (ECMAScript WhiteSpace plus
LineTerminator), as used by the `\s` atoms, `trim`, `trimEnd`. -/
def isWS (c : Char) : Bool :=
  c == '\t' || c == '\n' || c == (Char.ofNat 11) || c == (Char.ofNat 12) ||
  c == '\r' || c == ' ' || c == (Char.ofNat 0xa0) || c == (Char.ofNat 0x1680) ||
  (0x2000 ≤ c.toNat && c.toNat ≤ 0x200a) || c == (Char.ofNat 0x2028) ||
  c == (Char.ofNat 0x2029) || c == (Char.ofNat 0x202f) ||
  c == (Char.ofNat 0x205f) || c == (Char.ofNat 0x3000) || c == (Char.ofNat 0xfeff)

/-- ECMAScript LineTerminator set: the characters that the regex atom `.`
does not match. -/
def isLineTerm (c : Char) : Bool :=
  c == '\n' || c == '\r' || c == (Char.ofNat 0x2028) || c == (Char.ofNat 0x2029)

/-- JavaScript `String.prototype.trimEnd`. -/
def trimEndCs (cs : List Char) : List Char :=
  (cs.reverse.dropWhile isWS).reverse

/-- JavaScript `String.prototype.trim`. -/
def trimCs (cs : List Char) : List Char :=
  trimEndCs (cs.dropWhile isWS)

/-- JavaScript `str.split('\n')`. -/
def splitOnNl : List Char → List (List Char)
  | [] => [[]]
  | c :: r =>
    if c == '\n' then [] :: splitOnNl r
    else
      match splitOnNl r with
      | s :: ss => (c :: s) :: ss
      | [] => [[c]]

/-- JavaScript `arr.join('\n')`. -/
def joinNl : List (List Char) → List Char
  | [] => []
  | [x] => x
  | x :: y :: xs => x ++ '\n' :: joinNl (y :: xs)

/-- JavaScript `arr.join('\n\n')`, used on the merged section contents. -/
def contentsJoin : List (List Char) → List Char
  | [] => []
  | [x] => x
  | x :: y :: xs => x ++ '\n' :: '\n' :: contentsJoin (y :: xs)

/-- Backtracking search for the `\s+(.+)$` tail of the heading regex
`^(#{1,6})\s+(.+)$` applied to `r` (the text after the `#` run): the greedy
`\s+` first takes `j` characters and on failure of `(.+)$` gives characters
back one at a time, never fewer than one.  Returns the `(.+)` capture. -/
def seekCap : Nat → List Char → Option (List Char)
  | 0, _ => none
  | j + 1, r =>
    let t := r.drop (j + 1)
    if t ≠ [] ∧ t.all (fun c => !isLineTerm c) then some t else seekCap j r

/-- JavaScript `line.match(/^(#{1,6})\s+(.+)$/)` on a single line (a string
with no `'\n'`): returns the `#` count and the raw `(.+)` capture. -/
def matchHeader (l : List Char) : Option (Nat × List Char) :=
  let k := (l.takeWhile (fun c => c == '#')).length
  if 1 ≤ k ∧ k ≤ 6 then
    (seekCap (((l.drop k).takeWhile isWS).length) (l.drop k)).map (fun cap => (k, cap))
  else none

/-- One heading-delimited block of a document. -/
structure Section where
  header : List Char
  level : Nat
  content : List Char
deriving DecidableEq, Repr

/-- State of the line scanning loop of `parseSections`. -/
structure PState where
  header : List Char
  level : Nat
  buf : List (List Char)
  inSec : Bool
deriving Repr

/-- The line loop of `parseSections`: on a heading line the open section (or
a recorded header) is flushed and a new one opened; other lines are appended
to the open section's buffer and dropped otherwise.  At end of input the open
section is flushed only when its header is non-empty (JS truthiness of
`currentSectionHeader`). -/
def parseLoop : List (List Char) → PState → List Section
  | [], st =>
    if st.inSec && !st.header.isEmpty then
      [⟨st.header, st.level, trimEndCs (joinNl st.buf)⟩]
    else []
  | line :: rest, st =>
    match matchHeader line with
    | some (k, cap) =>
      (if st.inSec || !st.header.isEmpty then
        [⟨st.header, st.level, trimEndCs (joinNl st.buf)⟩]
       else []) ++
      parseLoop rest ⟨trimCs cap, k, [line], true⟩
    | none =>
      parseLoop rest (if st.inSec then { st with buf := st.buf ++ [line] } else st)

/-- `parseSections` on a character list. -/
def parseSectionsCs (cs : List Char) : List Section :=
  parseLoop (splitOnNl cs) ⟨[], 0, [], false⟩

/-- `export function parseSections(markdown: string): Section[]`. -/
def parseSections (s : String) : List Section :=
  parseSectionsCs s.data

/-- The header `'About This Project'`. -/
def aboutH : List Char := "About This Project".data

/-- The header `'Pending TODOs'`. -/
def todosH : List Char := "Pending TODOs".data

/-- The header `'Architecture Rules'`. -/
def archH : List Char := "Architecture Rules".data

/-- `const PRESERVED_SECTIONS`, in source order. -/
def PRESERVED_SECTIONS : List (List Char) := [aboutH, todosH, archH]

/-- `export interface PreservedData`. -/
structure PreservedData where
  description : List Char
  architectureRules : List (List Char)
  todos : List (List Char)
deriving DecidableEq, Repr

/-- Description extraction: `content.split('\n').slice(1).join('\n').trim()`. -/
def descriptionOf (sec : Section) : List Char :=
  trimCs (joinNl ((splitOnNl sec.content).drop 1))

/-- JavaScript `t.startsWith('- ')` on an already trimmed line. -/
def dashBullet (t : List Char) : Bool :=
  match t with
  | '-' :: ' ' :: _ => true
  | _ => false

/-- Rules extraction: lines whose trimmed form starts with `'- '`, with the
prefix sliced off and the remainder trimmed again. -/
def rulesOf (sec : Section) : List (List Char) :=
  ((splitOnNl sec.content).filter (fun l => dashBullet (trimCs l))).map
    (fun l => trimCs ((trimCs l).drop 2))

/-- JavaScript `t.match(/^- \[[ x]\]/)` (as a Boolean) on a trimmed line. -/
def todoFilter (t : List Char) : Bool :=
  match t with
  | '-' :: ' ' :: '[' :: b :: ']' :: _ => b == ' ' || b == 'x'
  | _ => false

/-- Backtracking search for `\s*(.+)$`: the greedy `\s*` takes `j`
characters, giving them back one at a time down to zero. -/
def seekCap0 (j : Nat) (r : List Char) : Option (List Char) :=
  match seekCap j r with
  | some t => some t
  | none => if r ≠ [] ∧ r.all (fun c => !isLineTerm c) then some r else none

/-- JavaScript `t.match(/^- \[[ x]\]\s*(.+)$/)` on a trimmed line, returning
the `(.+)` capture. -/
def todoCap (t : List Char) : Option (List Char) :=
  match t with
  | '-' :: ' ' :: '[' :: b :: ']' :: r =>
    if b == ' ' || b == 'x' then seekCap0 ((r.takeWhile isWS).length) r else none
  | _ => none

/-- Todos extraction: the checkbox filter, then the capture map (`''` on a
failed match), then JS `filter(Boolean)` which drops empty strings. -/
def todosOf (sec : Section) : List (List Char) :=
  (((splitOnNl sec.content).filter (fun l => todoFilter (trimCs l))).map
    (fun l =>
      match todoCap (trimCs l) with
      | some m1 => trimCs m1
      | none => [])).filter (fun x => !x.isEmpty)

/-- `export function extractPreservedData(existingContent: string)`.  The
section for each special header is resolved with `sections.find(...)`. -/
def extractPreservedData (s : String) : PreservedData :=
  let sections := parseSectionsCs s.data
  let aboutSection := sections.find? (fun sec => sec.header == aboutH)
  let archSection := sections.find? (fun sec => sec.header == archH)
  let todoSection := sections.find? (fun sec => sec.header == todosH)
  { description :=
      match aboutSection with
      | some sec => descriptionOf sec
      | none => []
    architectureRules :=
      match archSection with
      | some sec => rulesOf sec
      | none => []
    todos :=
      match todoSection with
      | some sec => todosOf sec
      | none => [] }

/-- The header-keyed lookup built with `Map.set` over a section list: later
insertions overwrite earlier ones, so the last section wins. -/
def lookupHeader (sections : List Section) (h : List Char) : Option Section :=
  sections.foldl (fun acc s => if s.header == h then some s else acc) none

/-- The `finalSections` list of `merge`: one pass over `newSections`
replacing preserved headers by the existing lookup entry when present,
followed by the append loop over `existingSections` whose guard compares
`existingSection.header` with itself. -/
def mergeSections (existingContent newContent : List Char) : List Section :=
  let existingSections := parseSectionsCs existingContent
  let newSections := parseSectionsCs newContent
  let finalSections := newSections.map (fun ns =>
    if PRESERVED_SECTIONS.contains ns.header then
      match lookupHeader existingSections ns.header with
      | some ex => ex
      | none => ns
    else ns)
  existingSections.foldl (fun acc es =>
    let alreadyIncluded :=
      (lookupHeader newSections es.header).isSome ||
      acc.any (fun s => s.header == es.header)
    if !alreadyIncluded && (es.header != es.header) then acc ++ [es] else acc)
    finalSections

/-- `merge` on character lists:
`finalSections.map((s) => s.content).join('\n\n') + '\n'`. -/
def mergeCs (existingContent newContent : List Char) : List Char :=
  contentsJoin ((mergeSections existingContent newContent).map Section.content) ++ ['\n']

/-- `export function merge(existingContent, newContent): string`. -/
def merge (existingContent newContent : String) : String :=
  ⟨mergeCs existingContent.data newContent.data⟩

/-- The literal before the date in the banner regex
`/> Auto-generated by flight-dispatcher on .+?\. Re-run/`. -/
def bannerPre : List Char := "> Auto-generated by flight-dispatcher on ".data

/-- The literal after the date in the banner regex (`\. Re-run`). -/
def bannerSuf : List Char := ". Re-run".data

/-- The lazy `.+?` of the banner regex: the smallest positive number of
non-LineTerminator characters after which `bannerSuf` follows. -/
def lazyScan : List Char → Option Nat
  | [] => none
  | c :: rest =>
    if isLineTerm c then none
    else if bannerSuf.isPrefixOf rest then some 1
    else (lazyScan rest).map (· + 1)

/-- Whether the banner regex matches at the start of `s`; returns the full
match length. -/
def matchBannerHere (s : List Char) : Option Nat :=
  if bannerPre.isPrefixOf s then
    (lazyScan (s.drop bannerPre.length)).map
      (fun k => bannerPre.length + k + bannerSuf.length)
  else none

/-- Leftmost match of the banner regex: start index and length, as found by
`String.prototype.replace` with a non-global regex. -/
def findBanner : List Char → Option (Nat × Nat)
  | [] => none
  | c :: rest =>
    match matchBannerHere (c :: rest) with
    | some len => some (0, len)
    | none => (findBanner rest).map (fun p => (p.1 + 1, p.2))

/-- JavaScript replacement-string substitution (`$$`, `$&`, backtick and
quote forms; the regex has no capture groups, so `$n` stays literal). -/
def applySubst (tmpl matched before after : List Char) : List Char :=
  match tmpl with
  | [] => []
  | '$' :: '$' :: r => '$' :: applySubst r matched before after
  | '$' :: '&' :: r => matched ++ applySubst r matched before after
  | '$' :: '\'' :: r => after ++ applySubst r matched before after
  | '$' :: c :: r =>
    if c == Char.ofNat 96 then before ++ applySubst r matched before after
    else '$' :: applySubst (c :: r) matched before after
  | c :: r => c :: applySubst r matched before after

/-- `updateTimestamp` on character lists: `content.replace(re, repl)` where
`repl` is the template literal around `date`. -/
def updateTimestampCs (content date : List Char) : List Char :=
  match findBanner content with
  | none => content
  | some (i, len) =>
    let matched := (content.drop i).take len
    content.take i ++
      applySubst (bannerPre ++ date ++ bannerSuf) matched
        (content.take i) (content.drop (i + len)) ++
      content.drop (i + len)

/-- `export function updateTimestamp(content, date): string`. -/
def updateTimestamp (content date : String) : String :=
  ⟨updateTimestampCs content.data date.data⟩

/-- The checkbox grammar of the specification, stated declaratively: a
trimmed line `- [ ] <text>` or `- [x] <text>` (lowercase `x` only) where
`<text>` is, after optional whitespace, a nonempty run of
non-line-terminator characters reaching the end of the line; the produced
todo is the trimmed `<text>`. -/
def checkboxText (t : List Char) : Option (List Char) :=
  match t with
  | '-' :: ' ' :: '[' :: b :: ']' :: r =>
    if b == ' ' || b == 'x' then
      let post := r.dropWhile isWS
      if post ≠ [] ∧ post.all (fun c => !isLineTerm c) then some (trimEndCs post)
      else none
    else none
  | _ => none

/-- The heading grammar claimed by the specification, `^#{1,6}[ \t]+.+$`:
1 to 6 `#` characters, then at least one space-or-tab, then non-empty
trailing text. -/
def specHeadingGrammar (l : List Char) : Bool :=
  let k := (l.takeWhile (fun c => c == '#')).length
  let rest := l.drop k
  decide (1 ≤ k ∧ k ≤ 6 ∧ 2 ≤ rest.length ∧
    rest.takeWhile (fun c => c == ' ' || c == '\t') ≠ [])

/-- Input texts whose only line-terminator character is `'\n'` (no carriage
return, U+2028, U+2029). -/
def cleanChars (cs : List Char) : Bool :=
  cs.all (fun c => c == '\n' || !isLineTerm c)

/-- A line with no line-terminator characters at all. -/
def goodLine (l : List Char) : Prop :=
  ∀ c ∈ l, isLineTerm c = false

/-- Well-formed section produced by the parser: non-empty header, content
stable under right-trimming, whose first line is a heading line carrying the
section's level and header and whose remaining lines are non-heading. -/
def WFSection (sec : Section) : Prop :=
  sec.header ≠ [] ∧ trimEndCs sec.content = sec.content ∧
  ∃ l₀ ls cap, splitOnNl sec.content = l₀ :: ls ∧
    matchHeader l₀ = some (sec.level, cap) ∧ trimCs cap = sec.header ∧
    ∀ l ∈ ls, matchHeader l = none

/-- The lines a section contributes to the split of the joined merge
output: its own content lines followed by one separator blank line. -/
def blockOf (sec : Section) : List (List Char) :=
  splitOnNl sec.content ++ [[]]

/-- The line sequence of the joined output of a list of sections. -/
def blocksOf : List Section → List (List Char)
  | [] => []
  | sec :: S => blockOf sec ++ blocksOf S

end FlightDispatcher

namespace FlightDispatcher

example : "ab".data = ['a', 'b'] := rfl
example : parseSections "## A\nx" = [⟨"A".data, 2, "## A\nx".data⟩] := by decide
example : parseSections "#  \n# A" =
    [⟨[], 1, "#".data⟩, ⟨"A".data, 1, "# A".data⟩] := by decide
example : parseSections "" = [] := by decide
example : parseSections "#\x0BX" = [⟨"X".data, 1, "#\x0BX".data⟩] := by decide
example : parseSections "####### t" = [] := by decide
example : matchHeader "# a\r".data = none := by decide
example : matchHeader "#  ".data = some (1, [' ']) := by decide

example :
    (extractPreservedData "## Pending TODOs\n- [ ] A\n- [x] B\n- not a todo\n").todos =
      ["A".data, "B".data] := by decide

example :
    (extractPreservedData "## About This Project\nfirst\n\n## About This Project\nsecond\n").description =
      "first".data := by decide

example :
    (extractPreservedData "## Architecture Rules\n- Use X\n- Use Y\n").architectureRules =
      ["Use X".data, "Use Y".data] := by decide

example : merge "## Custom\nkeep" "## Other\nx" = "## Other\nx\n" := by decide

example : merge "## A\none\n\n## B\ntwo" "" = "\n" := by decide

example : updateTimestamp "no banner here" "2026-01-01" = "no banner here" := by decide

example :
    updateTimestamp "> Auto-generated by flight-dispatcher on 2020-02-02. Re-run `x` to update. Re-run" "2026-01-01" =
      "> Auto-generated by flight-dispatcher on 2026-01-01. Re-run `x` to update. Re-run" := by
  decide

example :
    updateTimestamp "> Auto-generated by flight-dispatcher on X. Re-run" "$&" =
      "> Auto-generated by flight-dispatcher on > Auto-generated by flight-dispatcher on X. Re-run. Re-run" := by
  decide

example :
    merge "## About This Project\nHello\n\n## Other\nold" "## About This Project\nGoodbye\n\n## Other\nnew" =
      "## About This Project\nHello\n\n## Other\nnew\n" := by decide

/-! Lemmas about the merger's second loop and the header lookup. -/

theorem foldl_const {α β : Type} (a : α) (l : List β) :
    l.foldl (fun acc _ => acc) a = a := by
  induction l generalizing a with
  | nil => rfl
  | cons x l ih => exact ih a

theorem foldl_merge_append (newSections : List Section) (es acc : List Section) :
    es.foldl (fun acc es' =>
      let alreadyIncluded :=
        (lookupHeader newSections es'.header).isSome ||
        acc.any (fun s => s.header == es'.header)
      if !alreadyIncluded && (es'.header != es'.header) then acc ++ [es'] else acc)
      acc = acc := by
  have hstep : (fun (acc : List Section) es' =>
      let alreadyIncluded :=
        (lookupHeader newSections es'.header).isSome ||
        acc.any (fun s => s.header == es'.header)
      if !alreadyIncluded && (es'.header != es'.header) then acc ++ [es'] else acc) =
      fun acc _ => acc := by
    funext acc es'
    simp [bne_self_eq_false]
  rw [hstep]
  exact foldl_const acc es

theorem mergeSections_eq_map (ecs ncs : List Char) :
    mergeSections ecs ncs = (parseSectionsCs ncs).map (fun ns =>
      if PRESERVED_SECTIONS.contains ns.header then
        match lookupHeader (parseSectionsCs ecs) ns.header with
        | some ex => ex
        | none => ns
      else ns) := by
  unfold mergeSections
  exact foldl_merge_append _ _ _

theorem lookupHeader_go (h : List Char) (ss : List Section) (acc : Option Section)
    (ex : Section) (hres : ss.foldl (fun acc s => if s.header == h then some s else acc) acc = some ex) :
    (ex ∈ ss ∧ ex.header = h) ∨ acc = some ex := by
  induction ss generalizing acc with
  | nil => exact Or.inr hres
  | cons s ss ih =>
    simp only [List.foldl_cons] at hres
    rcases ih _ hres with ⟨hmem, hh⟩ | hacc
    · exact Or.inl ⟨List.mem_cons_of_mem _ hmem, hh⟩
    · by_cases hs : s.header == h
      · rw [if_pos hs] at hacc
        cases hacc
        exact Or.inl ⟨List.mem_cons_self .., by simpa using hs⟩
      · rw [if_neg hs] at hacc
        exact Or.inr hacc

theorem lookupHeader_mem {ss : List Section} {h : List Char} {ex : Section}
    (hres : lookupHeader ss h = some ex) : ex ∈ ss ∧ ex.header = h := by
  rcases lookupHeader_go h ss none ex hres with good | bad
  · exact good
  · cases bad

theorem lookup_stays_some (h : List Char) (ss : List Section) (x : Section) :
    ss.foldl (fun acc s => if s.header == h then some s else acc) (some x) ≠ none := by
  induction ss generalizing x with
  | nil => simp
  | cons t ts ih =>
    simp only [List.foldl_cons]
    by_cases ht : t.header == h
    · rw [if_pos ht]; exact ih t
    · rw [if_neg ht]; exact ih x

theorem lookupHeader_none_iff (ss : List Section) (h : List Char) :
    lookupHeader ss h = none ↔ ∀ s ∈ ss, s.header ≠ h := by
  unfold lookupHeader
  induction ss with
  | nil => simp
  | cons t ts ih =>
    simp only [List.foldl_cons]
    by_cases ht : t.header == h
    · rw [if_pos ht]
      constructor
      · intro hnone
        exact absurd hnone (lookup_stays_some h ts t)
      · intro hall
        exact absurd (by simpa using ht) (hall t (List.mem_cons_self ..))
    · rw [if_neg ht]
      constructor
      · intro hnone s hmem
        rcases List.mem_cons.mp hmem with rfl | hmem'
        · simpa using ht
        · exact (ih.mp hnone) s hmem'
      · intro hall
        exact ih.mpr fun s hs => hall s (List.mem_cons_of_mem _ hs)

theorem mergeSections_empty_new (ecs ncs : List Char)
    (hn : parseSectionsCs ncs = []) : mergeSections ecs ncs = [] := by
  rw [mergeSections_eq_map, hn]
  rfl

/-- Claim C10: for every existing document, `merge(existing, "")` is exactly
the one-character string `"\n"`; every section of the existing document is
discarded. -/
theorem merge_empty_new_discards_existing (e : String) : merge e "" = "\n" := by
  show (⟨mergeCs e.data "".data⟩ : String) = "\n"
  unfold mergeCs
  rw [mergeSections_empty_new e.data "".data (by decide)]
  rfl

/-- Claim C1 (code bug witness): the merger never appends existing sections
whose header is absent from the new document.  With an existing custom
section `## Custom` and a new document that does not contain it, the merged
output is exactly the new document's text: the custom section is dropped,
contradicting the documented append contract. -/
theorem merge_drops_custom_section :
    merge "## Custom\nkeep" "## Other\nx" = "## Other\nx\n" ∧
    (∀ sec ∈ parseSections "## Custom\nkeep", sec.header = "Custom".data) ∧
    (∀ sec ∈ parseSections (merge "## Custom\nkeep" "## Other\nx"),
      sec.header ≠ "Custom".data) := by
  refine ⟨by decide, by decide, by decide⟩

/-! Parsing skips everything before the first heading line. -/

theorem parseLoop_nonmatch_closed (pre rest : List (List Char))
    (h : ∀ l ∈ pre, matchHeader l = none) :
    parseLoop (pre ++ rest) ⟨[], 0, [], false⟩ = parseLoop rest ⟨[], 0, [], false⟩ := by
  induction pre with
  | nil => rfl
  | cons l pre ih =>
    have hl : matchHeader l = none := h l (List.mem_cons_self ..)
    show parseLoop (l :: (pre ++ rest)) ⟨[], 0, [], false⟩ = _
    rw [parseLoop, hl]
    exact ih fun l' hl' => h l' (List.mem_cons_of_mem _ hl')

theorem parseLoop_nonmatch_nil (ls : List (List Char))
    (h : ∀ l ∈ ls, matchHeader l = none) :
    parseLoop ls ⟨[], 0, [], false⟩ = [] := by
  have := parseLoop_nonmatch_closed ls [] h
  rw [List.append_nil] at this
  rw [this]
  rfl

/-- Claim C9: parsing is total and returns the empty sequence on heading-less
input; all lines before the first heading are discarded (prepending
non-heading lines does not change the parse); all four operations are total
functions of their string inputs. -/
theorem engine_total_and_preamble_discarded :
    (∀ s : String, (∀ l ∈ splitOnNl s.data, matchHeader l = none) → parseSections s = [])
    ∧ (∀ pre rest : List (List Char), (∀ l ∈ pre, matchHeader l = none) →
        parseLoop (pre ++ rest) ⟨[], 0, [], false⟩ = parseLoop rest ⟨[], 0, [], false⟩)
    ∧ (∀ s : String, ∃ r, parseSections s = r)
    ∧ (∀ e n : String, ∃ r, merge e n = r)
    ∧ (∀ s : String, ∃ r, extractPreservedData s = r)
    ∧ (∀ s d : String, ∃ r, updateTimestamp s d = r) := by
  refine ⟨fun s h => parseLoop_nonmatch_nil _ h, parseLoop_nonmatch_closed,
    fun s => ⟨_, rfl⟩, fun e n => ⟨_, rfl⟩, fun s => ⟨_, rfl⟩, fun s d => ⟨_, rfl⟩⟩

/-- Witness for C9 at concrete inputs. -/
theorem engine_total_and_preamble_discarded_witness :
    parseSections "plain text\nno headings" = [] ∧
    parseLoop (["junk".data] ++ ["# A".data]) ⟨[], 0, [], false⟩ =
      parseLoop ["# A".data] ⟨[], 0, [], false⟩ :=
  ⟨engine_total_and_preamble_discarded.1 "plain text\nno headings" (by decide),
   engine_total_and_preamble_discarded.2.1 ["junk".data] ["# A".data] (by decide)⟩

/-- Claim C2: a preserved-policy header present in the new document is
emitted, at its position in the new order, as the existing lookup's section
when the existing document has one, and as the new section otherwise. -/
theorem merge_preserved_sections (e n : String) (i : Nat) (ns : Section)
    (hns : (parseSectionsCs n.data)[i]? = some ns)
    (hp : PRESERVED_SECTIONS.contains ns.header = true) :
    (∀ ex, lookupHeader (parseSectionsCs e.data) ns.header = some ex →
        (mergeSections e.data n.data)[i]? = some ex ∧ ex ∈ parseSectionsCs e.data ∧
        ex.header = ns.header)
    ∧ (lookupHeader (parseSectionsCs e.data) ns.header = none →
        (mergeSections e.data n.data)[i]? = some ns)
    ∧ (lookupHeader (parseSectionsCs e.data) ns.header = none ↔
        ∀ s ∈ parseSectionsCs e.data, s.header ≠ ns.header) := by
  rw [mergeSections_eq_map]
  rw [List.getElem?_map, hns, Option.map_some']
  refine ⟨?_, ?_, lookupHeader_none_iff _ _⟩
  · intro ex hex
    rw [if_pos hp, hex]
    exact ⟨rfl, (lookupHeader_mem hex).1, (lookupHeader_mem hex).2⟩
  · intro hnone
    rw [if_pos hp, hnone]

/-- Witness for C2: the About section is taken from the existing document. -/
theorem merge_preserved_sections_witness :
    (mergeSections ("## About This Project\nHello\n\n## Other\nold").data
        ("## About This Project\nGoodbye\n\n## Other\nnew").data)[0]? =
      some ⟨"About This Project".data, 2, "## About This Project\nHello".data⟩ :=
  ((merge_preserved_sections "## About This Project\nHello\n\n## Other\nold"
      "## About This Project\nGoodbye\n\n## Other\nnew" 0
      ⟨"About This Project".data, 2, "## About This Project\nGoodbye".data⟩
      (by decide) (by decide)).1
    ⟨"About This Project".data, 2, "## About This Project\nHello".data⟩ (by decide)).1

/-! Banner rewriter lemmas. -/

theorem findBanner_none_iff (cs : List Char) :
    findBanner cs = none ↔ ∀ i, matchBannerHere (cs.drop i) = none := by
  induction cs with
  | nil =>
    simp only [findBanner, true_iff]
    intro i
    rw [List.drop_nil]
    decide
  | cons c r ih =>
    cases h : matchBannerHere (c :: r) with
    | some len =>
      simp only [findBanner, h]
      constructor
      · intro hfalse; cases hfalse
      · intro hall
        have := hall 0
        rw [List.drop_zero, h] at this
        cases this
    | none =>
      simp only [findBanner, h, Option.map_eq_none']
      rw [ih]
      constructor
      · intro hall i
        cases i with
        | zero => rw [List.drop_zero]; exact h
        | succ j => rw [List.drop_succ_cons]; exact hall j
      · intro hall j
        have := hall (j + 1)
        rwa [List.drop_succ_cons] at this

theorem findBanner_some_first (cs : List Char) (i len : Nat)
    (h : findBanner cs = some (i, len)) :
    (∀ j, j < i → matchBannerHere (cs.drop j) = none) ∧
    matchBannerHere (cs.drop i) = some len := by
  induction cs generalizing i with
  | nil => cases h
  | cons c r ih =>
    cases hm : matchBannerHere (c :: r) with
    | some l =>
      rw [findBanner, hm] at h
      cases h
      exact ⟨fun j hj => absurd hj (Nat.not_lt_zero j), hm⟩
    | none =>
      rw [findBanner, hm] at h
      cases hr : findBanner r with
      | none => rw [hr] at h; cases h
      | some p =>
        rw [hr] at h
        cases h
        rcases ih p.1 (by rw [hr]) with ⟨hbefore, hat⟩
        refine ⟨fun j hj => ?_, hat⟩
        cases j with
        | zero => rw [List.drop_zero]; exact hm
        | succ j' =>
          rw [List.drop_succ_cons]
          exact hbefore j' (Nat.lt_of_succ_lt_succ hj)

theorem applySubst_no_dollar (m b a : List Char) :
    ∀ tmpl, (∀ c ∈ tmpl, c ≠ '$') → applySubst tmpl m b a = tmpl := by
  intro tmpl
  induction tmpl with
  | nil => intro; rfl
  | cons c r ih =>
    intro h
    have hc : c ≠ '$' := h c (List.mem_cons_self ..)
    have hr : applySubst r m b a = r := ih fun x hx => h x (List.mem_cons_of_mem _ hx)
    rw [applySubst.eq_def]
    split
    · rename_i heq; exact absurd heq (List.cons_ne_nil c r)
    · rename_i heq; rw [List.cons.injEq] at heq; exact absurd heq.1 hc
    · rename_i heq; rw [List.cons.injEq] at heq; exact absurd heq.1 hc
    · rename_i heq; rw [List.cons.injEq] at heq; exact absurd heq.1 hc
    · rename_i heq; rw [List.cons.injEq] at heq; exact absurd heq.1 hc
    · rename_i heq
      rw [List.cons.injEq] at heq
      rw [← heq.1, ← heq.2, hr]

/-- Claim C8 (amended): for a date string containing no `'$'`, the rewriter
returns the input unchanged when the banner pattern matches nowhere, and
otherwise replaces exactly the leftmost match, leaving every character
before and after the matched span unchanged. -/
theorem updateTimestamp_first_match (s d : String)
    (hd : ∀ c ∈ d.data, c ≠ '$') :
    ((∀ i, matchBannerHere (s.data.drop i) = none) → updateTimestamp s d = s)
    ∧ (∀ i len, findBanner s.data = some (i, len) →
        (∀ j, j < i → matchBannerHere (s.data.drop j) = none)
        ∧ (updateTimestamp s d).data =
          s.data.take i ++ (bannerPre ++ d.data ++ bannerSuf) ++ s.data.drop (i + len)) := by
  have hsubst : ∀ m b a, applySubst (bannerPre ++ d.data ++ bannerSuf) m b a =
      bannerPre ++ d.data ++ bannerSuf := by
    intro m b a
    refine applySubst_no_dollar m b a _ fun c hc => ?_
    rcases List.mem_append.mp hc with hc' | hsuf
    · rcases List.mem_append.mp hc' with hpre | hdate
      · intro habs; rw [habs] at hpre; revert hpre; decide
      · exact hd c hdate
    · intro habs; rw [habs] at hsuf; revert hsuf; decide
  constructor
  · intro hnone
    have hfb : findBanner s.data = none := (findBanner_none_iff s.data).mpr hnone
    show (⟨updateTimestampCs s.data d.data⟩ : String) = s
    rw [updateTimestampCs, hfb]
  · intro i len hfind
    refine ⟨(findBanner_some_first s.data i len hfind).1, ?_⟩
    show updateTimestampCs s.data d.data = _
    rw [updateTimestampCs, hfind]
    exact congrArg (fun x => s.data.take i ++ x ++ s.data.drop (i + len)) (hsubst _ _ _)

/-- Witness for C8: a document with a prefix, a banner, and a later
occurrence of `Re-run`; only the banner's date span changes. -/
theorem updateTimestamp_first_match_witness :
    (updateTimestamp "Intro\n> Auto-generated by flight-dispatcher on 2020-02-02. Re-run `cmd`. Re-run" "2026-01-01").data =
      ("Intro\n> Auto-generated by flight-dispatcher on 2020-02-02. Re-run `cmd`. Re-run").data.take 6 ++
        (bannerPre ++ ("2026-01-01").data ++ bannerSuf) ++
        ("Intro\n> Auto-generated by flight-dispatcher on 2020-02-02. Re-run `cmd`. Re-run").data.drop (6 + 59) :=
  ((updateTimestamp_first_match
      "Intro\n> Auto-generated by flight-dispatcher on 2020-02-02. Re-run `cmd`. Re-run"
      "2026-01-01" (by decide)).2 6 59 (by decide)).2

/-- Counterexample for C8 as stated: with the date string `"$&"` the date
span is not rewritten to the supplied date string — JavaScript replacement
substitution expands `$&` to the whole match. -/
theorem updateTimestamp_dollar_cex :
    updateTimestamp "> Auto-generated by flight-dispatcher on X. Re-run" "$&" ≠
      "> Auto-generated by flight-dispatcher on $&. Re-run" := by decide

/-! The extractor resolves duplicate headers with `find`, i.e. first match. -/

theorem find?_of_first {α : Type} (p : α → Bool) (l : List α) (i : Nat) (x : α)
    (hx : l[i]? = some x) (hpx : p x = true)
    (hbefore : ∀ j y, j < i → l[j]? = some y → p y = false) :
    l.find? p = some x := by
  induction l generalizing i with
  | nil => simp at hx
  | cons a l ih =>
    cases i with
    | zero =>
      rw [List.getElem?_cons_zero, Option.some.injEq] at hx
      subst hx
      exact List.find?_cons_of_pos _ hpx
    | succ j =>
      rw [List.getElem?_cons_succ] at hx
      have ha : p a = false := hbefore 0 a (Nat.succ_pos j) List.getElem?_cons_zero
      rw [List.find?_cons_of_neg _ (by simp [ha])]
      exact ih j hx fun j' y hj' hy =>
        hbefore (j' + 1) y (Nat.succ_lt_succ hj') (by rwa [List.getElem?_cons_succ])

/-- Claim C4 (amended): the extractor resolves each special header
first-match-wins — the fields come from the first section with that header,
and a header with no matching section yields the empty default. -/
theorem extract_first_match_wins (s : String) :
    (∀ (i : Nat) (sec : Section), (parseSectionsCs s.data)[i]? = some sec → sec.header = aboutH →
      (∀ j (t : Section), j < i → (parseSectionsCs s.data)[j]? = some t → t.header ≠ aboutH) →
      (extractPreservedData s).description = descriptionOf sec)
    ∧ ((∀ sec ∈ parseSectionsCs s.data, sec.header ≠ aboutH) →
      (extractPreservedData s).description = [])
    ∧ (∀ (i : Nat) (sec : Section), (parseSectionsCs s.data)[i]? = some sec → sec.header = archH →
      (∀ j (t : Section), j < i → (parseSectionsCs s.data)[j]? = some t → t.header ≠ archH) →
      (extractPreservedData s).architectureRules = rulesOf sec)
    ∧ ((∀ sec ∈ parseSectionsCs s.data, sec.header ≠ archH) →
      (extractPreservedData s).architectureRules = [])
    ∧ (∀ (i : Nat) (sec : Section), (parseSectionsCs s.data)[i]? = some sec → sec.header = todosH →
      (∀ j (t : Section), j < i → (parseSectionsCs s.data)[j]? = some t → t.header ≠ todosH) →
      (extractPreservedData s).todos = todosOf sec)
    ∧ ((∀ sec ∈ parseSectionsCs s.data, sec.header ≠ todosH) →
      (extractPreservedData s).todos = []) := by
  refine ⟨?_, ?_, ?_, ?_, ?_, ?_⟩
  · intro i sec hx hh hbefore
    have hf : (parseSectionsCs s.data).find? (fun t => t.header == aboutH) = some sec :=
      find?_of_first _ _ i sec hx (by simp [hh])
        (fun j y hj hy => by simpa using hbefore j y hj hy)
    simp only [extractPreservedData]
    rw [hf]
  · intro hall
    have hf : (parseSectionsCs s.data).find? (fun t => t.header == aboutH) = none :=
      List.find?_eq_none.mpr fun t ht => by simpa using hall t ht
    simp only [extractPreservedData]
    rw [hf]
  · intro i sec hx hh hbefore
    have hf : (parseSectionsCs s.data).find? (fun t => t.header == archH) = some sec :=
      find?_of_first _ _ i sec hx (by simp [hh])
        (fun j y hj hy => by simpa using hbefore j y hj hy)
    simp only [extractPreservedData]
    rw [hf]
  · intro hall
    have hf : (parseSectionsCs s.data).find? (fun t => t.header == archH) = none :=
      List.find?_eq_none.mpr fun t ht => by simpa using hall t ht
    simp only [extractPreservedData]
    rw [hf]
  · intro i sec hx hh hbefore
    have hf : (parseSectionsCs s.data).find? (fun t => t.header == todosH) = some sec :=
      find?_of_first _ _ i sec hx (by simp [hh])
        (fun j y hj hy => by simpa using hbefore j y hj hy)
    simp only [extractPreservedData]
    rw [hf]
  · intro hall
    have hf : (parseSectionsCs s.data).find? (fun t => t.header == todosH) = none :=
      List.find?_eq_none.mpr fun t ht => by simpa using hall t ht
    simp only [extractPreservedData]
    rw [hf]

/-- Witness for C4 at a concrete document with two About sections. -/
theorem extract_first_match_wins_witness :
    (extractPreservedData "## About This Project\nfirst\n\n## About This Project\nsecond").description =
      descriptionOf ⟨aboutH, 2, "## About This Project\nfirst".data⟩ :=
  (extract_first_match_wins "## About This Project\nfirst\n\n## About This Project\nsecond").1
    0 ⟨aboutH, 2, "## About This Project\nfirst".data⟩ (by decide) rfl
    (fun j t hj _ => absurd hj (Nat.not_lt_zero j))

/-- Counterexample for C4 as stated: with two About sections the extractor
returns the first one's description, not the last one's. -/
theorem extract_last_match_cex :
    (extractPreservedData "## About This Project\nfirst\n\n## About This Project\nsecond\n").description =
      "first".data ∧
    (extractPreservedData "## About This Project\nfirst\n\n## About This Project\nsecond\n").description ≠
      "second".data := by
  exact ⟨by decide, by decide⟩

/-! Generic facts about trimming, `dropWhile` and the backtracking searches. -/

theorem dropWhile_eq_drop {α : Type} (p : α → Bool) (l : List α) :
    l.dropWhile p = l.drop ((l.takeWhile p).length) := by
  induction l with
  | nil => rfl
  | cons c r ih =>
    by_cases hc : p c
    · rw [List.dropWhile_cons_of_pos hc, List.takeWhile_cons_of_pos hc]
      simpa using ih
    · rw [List.dropWhile_cons_of_neg hc, List.takeWhile_cons_of_neg hc]
      rfl

theorem trimEnd_eq_nil_iff (cs : List Char) :
    trimEndCs cs = [] ↔ ∀ c ∈ cs, isWS c = true := by
  unfold trimEndCs
  rw [List.reverse_eq_nil_iff, List.dropWhile_eq_nil_iff]
  constructor
  · intro h c hc
    exact h c (List.mem_reverse.mpr hc)
  · intro h c hc
    exact h c (List.mem_reverse.mp hc)

theorem dropWhile_head_not {α : Type} (p : α → Bool) (l : List α) (c : α) (cs : List α)
    (h : l.dropWhile p = c :: cs) : p c = false := by
  induction l with
  | nil => cases h
  | cons a l ih =>
    by_cases ha : p a
    · rw [List.dropWhile_cons_of_pos ha] at h
      exact ih h
    · rw [List.dropWhile_cons_of_neg ha] at h
      cases h
      exact Bool.eq_false_iff.mpr ha

theorem trim_of_head_not_ws (cs : List Char) (h : cs.dropWhile isWS = cs) :
    trimCs cs = trimEndCs cs := by
  unfold trimCs
  rw [h]

theorem trim_ne_nil_of_head (c : Char) (cs : List Char) (hc : isWS c = false) :
    trimCs (c :: cs) ≠ [] := by
  unfold trimCs
  rw [List.dropWhile_cons_of_neg (by simp [hc])]
  intro habs
  have := (trimEnd_eq_nil_iff _).mp habs
  have := this c (List.mem_cons_self ..)
  rw [this] at hc
  cases hc

theorem trim_of_all_ws (cs : List Char) (h : ∀ c ∈ cs, isWS c = true) :
    trimCs cs = [] := by
  unfold trimCs
  rw [List.dropWhile_eq_nil_iff.mpr (by simpa using h)]
  rfl

theorem seekCap_some_elim (r : List Char) :
    ∀ j t, seekCap j r = some t →
      ∃ j', 1 ≤ j' ∧ j' ≤ j ∧ t = r.drop j' ∧ t ≠ [] ∧
        (t.all (fun c => !isLineTerm c)) = true := by
  intro j
  induction j with
  | zero => intro t h; cases h
  | succ j ih =>
    intro t h
    rw [seekCap] at h
    split at h
    · rename_i hcond
      cases h
      exact ⟨j + 1, Nat.succ_pos j, Nat.le_refl _, rfl, hcond.1, hcond.2⟩
    · rcases ih t h with ⟨j', h1, h2, h3, h4, h5⟩
      exact ⟨j', h1, Nat.le_succ_of_le h2, h3, h4, h5⟩

theorem seekCap_valid_at (r : List Char) (j : Nat) (hj : 1 ≤ j)
    (h1 : r.drop j ≠ []) (h2 : (r.drop j).all (fun c => !isLineTerm c) = true) :
    seekCap j r = some (r.drop j) := by
  cases j with
  | zero => cases hj
  | succ j =>
    rw [seekCap]
    rw [if_pos ⟨h1, h2⟩]

theorem seekCap_isSome_of (r : List Char) (j₀ : Nat) (hj₀ : 1 ≤ j₀)
    (h1 : r.drop j₀ ≠ []) (h2 : (r.drop j₀).all (fun c => !isLineTerm c) = true) :
    ∀ j, j₀ ≤ j → (seekCap j r).isSome = true := by
  intro j
  induction j with
  | zero => intro h; exact absurd (Nat.le_trans hj₀ h) (by simp)
  | succ j ih =>
    intro hle
    rw [seekCap]
    split
    · rfl
    · rename_i hcond
      rcases Nat.lt_or_ge j₀ (j + 1) with hlt | hge
      · exact ih (Nat.lt_succ_iff.mp hlt)
      · have : j₀ = j + 1 := Nat.le_antisymm hle hge
        subst this
        exact absurd ⟨h1, h2⟩ hcond

theorem drop_subset_drop {α : Type} (l : List α) (j m : Nat) (h : j ≤ m) :
    ∀ x ∈ l.drop m, x ∈ l.drop j := by
  intro x hx
  have : l.drop m = (l.drop j).drop (m - j) := by
    rw [List.drop_drop]
    congr 1
    omega
  rw [this] at hx
  exact List.drop_subset _ _ hx

theorem seekCap_none_of_term (r : List Char) (m : Nat) (c : Char)
    (hc : c ∈ r.drop m) (hterm : isLineTerm c = true) :
    ∀ j, j ≤ m → seekCap j r = none := by
  intro j
  induction j with
  | zero => intro; rfl
  | succ j ih =>
    intro hle
    rw [seekCap]
    rw [if_neg ?_]
    · exact ih (Nat.le_of_succ_le hle)
    · intro ⟨_, hall⟩
      have hmem : c ∈ r.drop (j + 1) := drop_subset_drop r (j + 1) m hle c hc
      have := List.all_eq_true.mp hall c hmem
      rw [hterm] at this
      cases this

/-! Behaviour of the `\s*(.+)$` search used by the todo capture. -/

theorem seekCap0_valid (r : List Char) (h1 : r.dropWhile isWS ≠ [])
    (h2 : (r.dropWhile isWS).all (fun c => !isLineTerm c) = true) :
    seekCap0 ((r.takeWhile isWS).length) r = some (r.dropWhile isWS) := by
  have hdrop : r.dropWhile isWS = r.drop ((r.takeWhile isWS).length) :=
    dropWhile_eq_drop _ _
  rcases Nat.eq_zero_or_pos ((r.takeWhile isWS).length) with h0 | hpos
  · have hr : r.dropWhile isWS = r := by rw [hdrop, h0, List.drop_zero]
    rw [hr] at h1 h2
    unfold seekCap0
    rw [h0]
    show (match (none : Option (List Char)) with
      | some t => some t
      | none => if r ≠ [] ∧ r.all (fun c => !isLineTerm c) then some r else none) = _
    rw [if_pos ⟨h1, h2⟩, hr]
  · rw [hdrop] at h1 h2 ⊢
    unfold seekCap0
    rw [seekCap_valid_at r _ hpos h1 h2]

theorem seekCap0_term (r : List Char) (c : Char) (hc : c ∈ r.dropWhile isWS)
    (hterm : isLineTerm c = true) :
    seekCap0 ((r.takeWhile isWS).length) r = none := by
  have hdrop : r.dropWhile isWS = r.drop ((r.takeWhile isWS).length) :=
    dropWhile_eq_drop _ _
  have hmemr : c ∈ r := by
    rw [hdrop] at hc
    exact List.drop_subset _ _ hc
  have hnone : seekCap ((r.takeWhile isWS).length) r = none :=
    seekCap_none_of_term r _ c (hdrop ▸ hc) hterm _ (Nat.le_refl _)
  unfold seekCap0
  rw [hnone]
  show (if r ≠ [] ∧ r.all (fun c => !isLineTerm c) then some r else none) = none
  rw [if_neg ?_]
  intro ⟨_, hall⟩
  have := List.all_eq_true.mp hall c hmemr
  rw [hterm] at this
  cases this

theorem seekCap0_allws (r : List Char) (j : Nat) (hws : ∀ x ∈ r, isWS x = true)
    (t : List Char) (h : seekCap0 j r = some t) : ∀ x ∈ t, isWS x = true := by
  unfold seekCap0 at h
  cases hsk : seekCap j r with
  | some u =>
    rw [hsk] at h
    dsimp only at h
    cases h
    rcases seekCap_some_elim r j t hsk with ⟨j', _, _, heq, _, _⟩
    intro x hx
    rw [heq] at hx
    exact hws x (List.drop_subset _ _ hx)
  | none =>
    rw [hsk] at h
    dsimp only at h
    split at h
    · cases h
      exact hws
    · cases h

theorem dropWhile_idem (r : List Char) :
    (r.dropWhile isWS).dropWhile isWS = r.dropWhile isWS := by
  cases hp : r.dropWhile isWS with
  | nil => rfl
  | cons c cs =>
    have := dropWhile_head_not isWS r c cs hp
    rw [List.dropWhile_cons_of_neg (by simp [this])]

/-- Per-line agreement between the extractor's filter–capture–filter
pipeline and the declarative checkbox grammar. -/
theorem checkbox_pipeline_single (t : List Char) :
    (if todoFilter t then
      (match todoCap t with
       | some m1 => if (trimCs m1).isEmpty then none else some (trimCs m1)
       | none => none)
     else none) = checkboxText t := by
  by_cases hf : todoFilter t = true
  · rw [todoFilter.eq_def] at hf
    split at hf
    · rename_i b r
      simp only [todoFilter, todoCap, checkboxText]
      rw [if_pos hf, if_pos hf, if_pos hf]
      rcases hpost : r.dropWhile isWS with _ | ⟨c, cs⟩
      · -- r is all whitespace: the capture trims to nothing on both sides
        have hws : ∀ x ∈ r, isWS x = true := by
          simpa using List.dropWhile_eq_nil_iff.mp hpost
        rw [if_neg (by intro ⟨habs, _⟩; exact habs rfl)]
        cases hsk : seekCap0 ((r.takeWhile isWS).length) r with
        | none => rfl
        | some m1 =>
          have hnil : trimCs m1 = [] :=
            trim_of_all_ws m1 (seekCap0_allws r _ hws m1 hsk)
          simp [hnil]
      · have hhead : isWS c = false := dropWhile_head_not isWS r c cs hpost
        by_cases hall : ((c :: cs).all (fun x => !isLineTerm x)) = true
        · -- valid capture on both sides
          rw [seekCap0_valid r (by rw [hpost]; exact List.cons_ne_nil c cs)
            (by rw [hpost]; exact hall)]
          dsimp only
          rw [hpost]
          have htr : trimCs (c :: cs) = trimEndCs (c :: cs) := by
            have hid := dropWhile_idem r
            rw [hpost] at hid
            exact trim_of_head_not_ws _ hid
          rw [htr]
          rw [if_neg ?_, if_pos ⟨List.cons_ne_nil c cs, hall⟩]
          intro habs
          have hnil := List.isEmpty_iff.mp habs
          have hcw := (trimEnd_eq_nil_iff _).mp hnil c (List.mem_cons_self ..)
          rw [hcw] at hhead
          cases hhead
        · -- a line terminator in the capture: both sides reject
          obtain ⟨x, hx, hxt⟩ : ∃ x ∈ c :: cs, isLineTerm x = true := by
            by_contra hcon
            push_neg at hcon
            refine hall (List.all_eq_true.mpr fun x hx => ?_)
            have hx' : isLineTerm x = false := by simpa using hcon x hx
            simp [hx']
          rw [seekCap0_term r x (by rw [hpost]; exact hx) hxt]
          rw [if_neg (by intro ⟨_, h2⟩; exact hall h2)]
    · cases hf
  · have hcb : checkboxText t = none := by
      rw [checkboxText.eq_def]
      split
      · rename_i b r
        simp only [todoFilter] at hf
        rw [if_neg hf]
      · rfl
    rw [hcb, if_neg hf]

theorem todos_pipeline (lines : List (List Char)) :
    ((lines.filter (fun l => todoFilter (trimCs l))).map
      (fun l =>
        match todoCap (trimCs l) with
        | some m1 => trimCs m1
        | none => [])).filter (fun x => !x.isEmpty) =
    lines.filterMap (fun l => checkboxText (trimCs l)) := by
  induction lines with
  | nil => rfl
  | cons l ls ih =>
    by_cases hf : todoFilter (trimCs l) = true
    · rw [List.filter_cons_of_pos (by simpa using hf), List.map_cons]
      cases hc : todoCap (trimCs l) with
      | some m1 =>
        by_cases he : (trimCs m1).isEmpty = true
        · rw [List.filter_cons_of_neg (by simp [hc, he])]
          have hcb : checkboxText (trimCs l) = none := by
            rw [← checkbox_pipeline_single (trimCs l), if_pos hf, hc]
            dsimp only
            rw [if_pos he]
          rw [List.filterMap_cons, hcb]
          exact ih
        · rw [List.filter_cons_of_pos (by simp [hc, he])]
          have hcb : checkboxText (trimCs l) = some (trimCs m1) := by
            rw [← checkbox_pipeline_single (trimCs l), if_pos hf, hc]
            dsimp only
            rw [if_neg he]
          rw [List.filterMap_cons, hcb]
          simp only [hc]
          rw [ih]
      | none =>
        rw [List.filter_cons_of_neg (by simp [hc])]
        have hcb : checkboxText (trimCs l) = none := by
          rw [← checkbox_pipeline_single (trimCs l), if_pos hf, hc]
        rw [List.filterMap_cons, hcb]
        exact ih
    · rw [List.filter_cons_of_neg (by simpa using hf)]
      have hcb : checkboxText (trimCs l) = none := by
        rw [← checkbox_pipeline_single (trimCs l), if_neg hf]
      rw [List.filterMap_cons, hcb]
      exact ih

/-- Claim C6: the todos field consists exactly of the resolved section's
lines matching the checkbox grammar (lowercase `x` only), mapped to the
trimmed captured text, in order, with empty captures removed. -/
theorem extract_todos_grammar (s : String) :
    ((parseSectionsCs s.data).find? (fun sec => sec.header == todosH) = none →
      (extractPreservedData s).todos = [])
    ∧ ∀ sec : Section,
        (parseSectionsCs s.data).find? (fun sec => sec.header == todosH) = some sec →
        (extractPreservedData s).todos =
          (splitOnNl sec.content).filterMap (fun l => checkboxText (trimCs l)) := by
  constructor
  · intro hf
    simp only [extractPreservedData]
    rw [hf]
  · intro sec hf
    simp only [extractPreservedData]
    rw [hf]
    show todosOf sec = _
    simp only [todosOf]
    exact todos_pipeline _

/-- Witness for C6: checkbox lines are captured, uppercase `X` and
non-checkbox lines are excluded. -/
theorem extract_todos_grammar_witness :
    (extractPreservedData "## Pending TODOs\n- [ ] A\n- [x] B\n- not a todo\n- [X] Caps").todos =
      (splitOnNl ("## Pending TODOs\n- [ ] A\n- [x] B\n- not a todo\n- [X] Caps").data).filterMap
        (fun l => checkboxText (trimCs l)) ∧
    (extractPreservedData "## Pending TODOs\n- [ ] A\n- [x] B\n- not a todo\n- [X] Caps").todos =
      ["A".data, "B".data] :=
  ⟨(extract_todos_grammar "## Pending TODOs\n- [ ] A\n- [x] B\n- not a todo\n- [X] Caps").2
      ⟨todosH, 2, "## Pending TODOs\n- [ ] A\n- [x] B\n- not a todo\n- [X] Caps".data⟩
      (by decide),
   by decide⟩

/-! Lemmas characterising the heading grammar. -/

theorem take_takeWhile_length {α : Type} (p : α → Bool) (l : List α) :
    l.take ((l.takeWhile p).length) = l.takeWhile p := by
  induction l with
  | nil => rfl
  | cons c r ih =>
    by_cases hc : p c
    · rw [List.takeWhile_cons_of_pos hc, List.length_cons, List.take_succ_cons, ih]
    · rw [List.takeWhile_cons_of_neg hc]
      rfl

theorem takeWhile_append_of_all {α : Type} (p : α → Bool) (a b : List α)
    (h : ∀ c ∈ a, p c = true) :
    (a ++ b).takeWhile p = a ++ b.takeWhile p := by
  induction a with
  | nil => rfl
  | cons c r ih =>
    rw [List.cons_append, List.takeWhile_cons_of_pos (h c (List.mem_cons_self ..)),
      ih fun x hx => h x (List.mem_cons_of_mem _ hx)]
    rfl

theorem dropWhile_append_of_all {α : Type} (p : α → Bool) (a b : List α)
    (h : ∀ c ∈ a, p c = true) :
    (a ++ b).dropWhile p = b.dropWhile p := by
  induction a with
  | nil => rfl
  | cons c r ih =>
    rw [List.cons_append, List.dropWhile_cons_of_pos (h c (List.mem_cons_self ..)),
      ih fun x hx => h x (List.mem_cons_of_mem _ hx)]

theorem trim_append_ws_left (a b : List Char) (h : ∀ c ∈ a, isWS c = true) :
    trimCs (a ++ b) = trimCs b := by
  unfold trimCs
  rw [dropWhile_append_of_all isWS a b h]

theorem ws_not_hash (c : Char) (h : isWS c = true) : (c == '#') = false := by
  cases hcb : c == '#' with
  | false => rfl
  | true =>
    have hce : c = '#' := by simpa using hcb
    rw [hce] at h
    cases h

theorem hashRun_of_decomp (k : Nat) (w t : List Char) (hw : w ≠ [])
    (hws : ∀ c ∈ w, isWS c = true) :
    (List.replicate k '#' ++ (w ++ t)).takeWhile (fun c => c == '#') =
      List.replicate k '#' := by
  induction k with
  | zero =>
    rcases w with _ | ⟨c, w'⟩
    · cases hw rfl
    · simp only [List.replicate, List.nil_append, List.cons_append]
      rw [List.takeWhile_cons_of_neg
        (by simp [ws_not_hash c (hws c (List.mem_cons_self ..))])]
  | succ k ih =>
    rw [List.replicate_succ, List.cons_append,
      List.takeWhile_cons_of_pos (by decide), ih]

theorem mem_take_of_le_takeWhile {α : Type} (p : α → Bool) (r : List α) (j : Nat)
    (hj : j ≤ (r.takeWhile p).length) : ∀ c ∈ r.take j, p c = true := by
  intro c hc
  have hsplit : r.take j = (r.takeWhile p).take j := by
    conv_lhs => rw [← List.takeWhile_append_dropWhile (p := p) (l := r)]
    exact List.take_append_of_le_length hj
  rw [hsplit] at hc
  exact List.mem_takeWhile_imp (List.take_subset _ _ hc)

theorem trim_drop_of_le_ws (r : List Char) (j : Nat)
    (hj : j ≤ (r.takeWhile isWS).length) :
    trimCs (r.drop j) = trimCs r := by
  conv_rhs => rw [← List.take_append_drop j r]
  exact (trim_append_ws_left _ _ (mem_take_of_le_takeWhile isWS r j hj)).symm

theorem takeWhile_len_le {α : Type} (p : α → Bool) (l : List α) :
    (l.takeWhile p).length ≤ l.length := by
  induction l with
  | nil => exact Nat.le_refl _
  | cons c r ih =>
    by_cases hc : p c
    · rw [List.takeWhile_cons_of_pos hc, List.length_cons, List.length_cons]
      exact Nat.succ_le_succ ih
    · rw [List.takeWhile_cons_of_neg hc]
      exact Nat.zero_le _

theorem matchHeader_eq (l : List Char) :
    matchHeader l =
      (if 1 ≤ (l.takeWhile (fun c => c == '#')).length ∧
          (l.takeWhile (fun c => c == '#')).length ≤ 6 then
        (seekCap (((l.drop ((l.takeWhile (fun c => c == '#')).length)).takeWhile
            isWS).length) (l.drop ((l.takeWhile (fun c => c == '#')).length))).map
          (fun cap => ((l.takeWhile (fun c => c == '#')).length, cap))
      else none) := rfl

/-- Claim C5 (amended): a line opens a section exactly when it matches the
JavaScript regex `^(#{1,6})\s+(.+)$`: 1 to 6 `#` characters, then at least
one character of the JS `\s` class (not just space and tab), then at least
one non-line-terminator character reaching the end of the line; the level is
the `#` count and the header is the trimmed text after the `#` run. -/
theorem heading_grammar_charact (l : List Char) :
    ((matchHeader l).isSome = true ↔
      ∃ k w t, l = List.replicate k '#' ++ w ++ t ∧ 1 ≤ k ∧ k ≤ 6 ∧ w ≠ [] ∧
        (∀ c ∈ w, isWS c = true) ∧ t ≠ [] ∧ (∀ c ∈ t, isLineTerm c = false))
    ∧ ∀ k cap, matchHeader l = some (k, cap) →
        l.takeWhile (fun c => c == '#') = List.replicate k '#' ∧ 1 ≤ k ∧ k ≤ 6 ∧
        trimCs cap = trimCs (l.drop k) := by
  have hrepl : l.takeWhile (fun c => c == '#') =
      List.replicate ((l.takeWhile (fun c => c == '#')).length) '#' := by
    rw [List.eq_replicate_iff]
    exact ⟨rfl, fun b hb => by simpa using List.mem_takeWhile_imp hb⟩
  constructor
  · constructor
    · intro hsome
      rw [matchHeader_eq] at hsome
      split at hsome
      · rename_i hk
        rw [Option.isSome_map'] at hsome
        cases hcap : seekCap (((l.drop ((l.takeWhile (fun c => c == '#')).length)).takeWhile
            isWS).length) (l.drop ((l.takeWhile (fun c => c == '#')).length)) with
        | none => rw [hcap] at hsome; cases hsome
        | some cap =>
          rcases seekCap_some_elim _ _ _ hcap with ⟨j', hj1, hj2, hdrop, hne, hall⟩
          refine ⟨(l.takeWhile (fun c => c == '#')).length,
            (l.drop ((l.takeWhile (fun c => c == '#')).length)).take j', cap,
            ?_, hk.1, hk.2, ?_, ?_, hne, ?_⟩
          · rw [List.append_assoc, hdrop, List.take_append_drop, ← hrepl,
              ← dropWhile_eq_drop (fun c => c == '#') l]
            exact (List.takeWhile_append_dropWhile ..).symm
          · have hjlen : j' ≤ (l.drop ((l.takeWhile (fun c => c == '#')).length)).length :=
              Nat.le_trans hj2 (takeWhile_len_le ..)
            have hlen : ((l.drop ((l.takeWhile (fun c => c == '#')).length)).take j').length =
                j' := by
              rw [List.length_take]
              exact Nat.min_eq_left hjlen
            intro habs
            rw [habs] at hlen
            simp at hlen
            omega
          · exact mem_take_of_le_takeWhile isWS _ j' hj2
          · intro c hc
            have := List.all_eq_true.mp hall c hc
            simpa using this
      · cases hsome
    · rintro ⟨k, w, t, hdecomp, hk1, hk6, hw, hws, ht, hterm⟩
      rw [matchHeader_eq]
      have hrun : l.takeWhile (fun c => c == '#') = List.replicate k '#' := by
        rw [hdecomp, List.append_assoc]
        exact hashRun_of_decomp k w t hw hws
      have hlen : (l.takeWhile (fun c => c == '#')).length = k := by
        rw [hrun, List.length_replicate]
      rw [hlen, if_pos ⟨hk1, hk6⟩, Option.isSome_map']
      have hdropk : l.drop k = w ++ t := by
        have hdl := List.drop_left (List.replicate k '#') (w ++ t)
        rw [List.length_replicate] at hdl
        rw [hdecomp, List.append_assoc]
        exact hdl
      rw [hdropk]
      have hwt : w.length ≤ ((w ++ t).takeWhile isWS).length := by
        rw [takeWhile_append_of_all isWS w t hws, List.length_append]
        exact Nat.le_add_right _ _
      have hdropw : (w ++ t).drop w.length = t := List.drop_left _ _
      have hw1 : 1 ≤ w.length := by
        cases w with
        | nil => cases hw rfl
        | cons c w' => rw [List.length_cons]; exact Nat.succ_le_succ (Nat.zero_le _)
      exact seekCap_isSome_of (w ++ t) w.length hw1
        (by rw [hdropw]; exact ht)
        (by rw [hdropw]; exact List.all_eq_true.mpr fun c hc => by simp [hterm c hc])
        _ hwt
  · intro k cap hsome
    rw [matchHeader_eq] at hsome
    split at hsome
    · rename_i hk
      rw [Option.map_eq_some'] at hsome
      rcases hsome with ⟨cap', hcap', heq⟩
      rw [Prod.mk.injEq] at heq
      rcases heq with ⟨hkk, hcapcap⟩
      subst hkk
      subst hcapcap
      rcases seekCap_some_elim _ _ _ hcap' with ⟨j', _, hj2, hdrop, _, _⟩
      refine ⟨hrepl, hk.1, hk.2, ?_⟩
      rw [hdrop]
      exact trim_drop_of_le_ws _ j' hj2
    · cases hsome

/-- Witness for C5 at the heading line `## A`. -/
theorem heading_grammar_charact_witness :
    (matchHeader "## A".data).isSome = true ∧
    ("## A".data.takeWhile (fun c => c == '#') = List.replicate 2 '#' ∧ 1 ≤ 2 ∧ 2 ≤ 6 ∧
      trimCs "A".data = trimCs ("## A".data.drop 2)) :=
  ⟨(heading_grammar_charact "## A".data).1.mpr ⟨2, [' '], "A".data, by decide⟩,
   (heading_grammar_charact "## A".data).2 2 "A".data (by decide)⟩

/-- Counterexample for C5 as stated: the vertical-tab character U+000B is
accepted as the separator by the code's `\s+`, although it is not in the
claimed `[ \t]` class, so `#␋X` opens a section. -/
theorem heading_grammar_cex :
    specHeadingGrammar "#\x0BX".data = false ∧
    parseSections "#\x0BX" = [⟨"X".data, 1, "#\x0BX".data⟩] := by
  exact ⟨by decide, by decide⟩

/-! Facts about splitting on and joining with newlines. -/

theorem splitOnNl_ne_nil (cs : List Char) : splitOnNl cs ≠ [] := by
  cases cs with
  | nil => exact fun h => by cases h
  | cons c r =>
    rw [splitOnNl]
    by_cases hc : (c == '\n') = true
    · rw [if_pos hc]
      exact fun h => by cases h
    · rw [if_neg hc]
      cases splitOnNl r with
      | nil => exact fun h => by cases h
      | cons s ss => exact fun h => by cases h

theorem splitOnNl_append_nl (a b : List Char) :
    splitOnNl (a ++ '\n' :: b) = splitOnNl a ++ splitOnNl b := by
  induction a with
  | nil => rfl
  | cons c a ih =>
    rw [List.cons_append, splitOnNl, splitOnNl]
    by_cases hc : (c == '\n') = true
    · rw [if_pos hc, if_pos hc, ih]
      rfl
    · rw [if_neg hc, if_neg hc, ih]
      cases hsp : splitOnNl a with
      | nil => exact absurd hsp (splitOnNl_ne_nil a)
      | cons s ss => rfl

theorem splitOnNl_no_nl (l : List Char) (h : '\n' ∉ l) : splitOnNl l = [l] := by
  induction l with
  | nil => rfl
  | cons c r ih =>
    rw [splitOnNl, if_neg (by simp; intro habs; exact h (habs ▸ List.mem_cons_self ..)),
      ih fun hm => h (List.mem_cons_of_mem _ hm)]

theorem joinNl_splitOnNl (cs : List Char) : joinNl (splitOnNl cs) = cs := by
  induction cs with
  | nil => rfl
  | cons c r ih =>
    rw [splitOnNl]
    by_cases hc : (c == '\n') = true
    · rw [if_pos hc]
      have hce : c = '\n' := by simpa using hc
      cases hsp : splitOnNl r with
      | nil => exact absurd hsp (splitOnNl_ne_nil r)
      | cons s ss =>
        rw [hsp] at ih
        rw [joinNl, hce, ih, List.nil_append]
    · rw [if_neg hc]
      cases hsp : splitOnNl r with
      | nil => exact absurd hsp (splitOnNl_ne_nil r)
      | cons s ss =>
        rw [hsp] at ih
        cases ss with
        | nil =>
          rw [joinNl] at ih ⊢
          rw [ih]
        | cons s' ss' =>
          rw [joinNl] at ih ⊢
          rw [List.cons_append, ih]

theorem mem_splitOnNl (cs : List Char) (l : List Char) (hl : l ∈ splitOnNl cs) :
    '\n' ∉ l ∧ ∀ c ∈ l, c ∈ cs := by
  induction cs generalizing l with
  | nil =>
    rw [splitOnNl] at hl
    rcases List.mem_singleton.mp hl with rfl
    exact ⟨(fun h => by cases h), (fun c hc => by cases hc)⟩
  | cons c r ih =>
    rw [splitOnNl] at hl
    by_cases hc : (c == '\n') = true
    · rw [if_pos hc] at hl
      rcases List.mem_cons.mp hl with rfl | hmem
      · exact ⟨(fun h => by cases h), (fun c hc => by cases hc)⟩
      · rcases ih l hmem with ⟨h1, h2⟩
        exact ⟨h1, fun x hx => List.mem_cons_of_mem _ (h2 x hx)⟩
    · rw [if_neg hc] at hl
      cases hsp : splitOnNl r with
      | nil => exact absurd hsp (splitOnNl_ne_nil r)
      | cons s ss =>
        rw [hsp] at hl
        rcases List.mem_cons.mp hl with rfl | hmem
        · have hs : s ∈ splitOnNl r := by rw [hsp]; exact List.mem_cons_self ..
          rcases ih s hs with ⟨h1, h2⟩
          refine ⟨?_, ?_⟩
          · intro habs
            rcases List.mem_cons.mp habs with heq | hmem'
            · rw [← heq] at hc
              exact hc (by decide)
            · exact h1 hmem'
          · intro x hx
            rcases List.mem_cons.mp hx with rfl | hmem'
            · exact List.mem_cons_self ..
            · exact List.mem_cons_of_mem _ (h2 x hmem')
        · have hmem2 : l ∈ splitOnNl r := by
            rw [hsp]
            exact List.mem_cons_of_mem _ hmem
          rcases ih l hmem2 with ⟨h1, h2⟩
          exact ⟨h1, fun x hx => List.mem_cons_of_mem _ (h2 x hx)⟩

/-! Facts about right-trimming. -/

theorem dropWhile_append_of_ne_nil {α : Type} (p : α → Bool) (a b : List α)
    (h : a.dropWhile p ≠ []) :
    (a ++ b).dropWhile p = a.dropWhile p ++ b := by
  induction a with
  | nil => exact absurd rfl h
  | cons c a ih =>
    by_cases hc : p c
    · rw [List.dropWhile_cons_of_pos hc] at h
      rw [List.cons_append, List.dropWhile_cons_of_pos hc,
        List.dropWhile_cons_of_pos hc, ih h]
    · rw [List.cons_append, List.dropWhile_cons_of_neg hc,
        List.dropWhile_cons_of_neg hc, List.cons_append]

theorem trimEnd_append (a b : List Char) :
    trimEndCs (a ++ b) =
      if trimEndCs b = [] then trimEndCs a else a ++ trimEndCs b := by
  by_cases hb : trimEndCs b = []
  · rw [if_pos hb]
    have hws : ∀ c ∈ b.reverse, isWS c = true := by
      intro c hc
      exact (trimEnd_eq_nil_iff b).mp hb c (List.mem_reverse.mp hc)
    unfold trimEndCs
    rw [List.reverse_append, dropWhile_append_of_all isWS _ _ hws]
  · rw [if_neg hb]
    have hne : b.reverse.dropWhile isWS ≠ [] := by
      intro habs
      exact hb (by unfold trimEndCs; rw [habs]; rfl)
    unfold trimEndCs
    rw [List.reverse_append, dropWhile_append_of_ne_nil isWS _ _ hne,
      List.reverse_append, List.reverse_reverse]

theorem trimEnd_append_ws (a b : List Char) (h : ∀ c ∈ b, isWS c = true) :
    trimEndCs (a ++ b) = trimEndCs a := by
  rw [trimEnd_append, if_pos ((trimEnd_eq_nil_iff b).mpr h)]

theorem dropWhile_idem_gen {α : Type} (p : α → Bool) (l : List α) :
    (l.dropWhile p).dropWhile p = l.dropWhile p := by
  cases h : l.dropWhile p with
  | nil => rfl
  | cons c cs =>
    rw [List.dropWhile_cons_of_neg (by simp [dropWhile_head_not p l c cs h])]

theorem trimEnd_idem (cs : List Char) : trimEndCs (trimEndCs cs) = trimEndCs cs := by
  unfold trimEndCs
  rw [List.reverse_reverse, dropWhile_idem_gen]

theorem trimEnd_decomp (cs : List Char) :
    ∃ q, cs = trimEndCs cs ++ q ∧ ∀ c ∈ q, isWS c = true := by
  refine ⟨(cs.reverse.takeWhile isWS).reverse, ?_, ?_⟩
  · unfold trimEndCs
    rw [← List.reverse_append, List.takeWhile_append_dropWhile, List.reverse_reverse]
  · intro c hc
    exact List.mem_takeWhile_imp (List.mem_reverse.mp hc)

/-! Heading matching on terminator-free lines. -/

theorem trim_eq_nil_iff (cs : List Char) :
    trimCs cs = [] ↔ ∀ c ∈ cs, isWS c = true := by
  constructor
  · intro h c hc
    rw [← List.takeWhile_append_dropWhile (p := isWS) (l := cs)] at hc
    rcases List.mem_append.mp hc with h1 | h2
    · exact List.mem_takeWhile_imp h1
    · exact (trimEnd_eq_nil_iff _).mp h c h2
  · intro h
    exact trim_of_all_ws cs h

theorem takeWhile_hash_repl (l : List Char) :
    l.takeWhile (fun c => c == '#') =
      List.replicate ((l.takeWhile (fun c => c == '#')).length) '#' := by
  rw [List.eq_replicate_iff]
  exact ⟨rfl, fun b hb => by simpa using List.mem_takeWhile_imp hb⟩

theorem matchHeader_isSome_clean (l : List Char) (hg : goodLine l) :
    (matchHeader l).isSome = true ↔
      (1 ≤ (l.takeWhile (fun c => c == '#')).length ∧
       (l.takeWhile (fun c => c == '#')).length ≤ 6 ∧
       ∃ c r', l.drop ((l.takeWhile (fun c => c == '#')).length) = c :: r' ∧
         isWS c = true ∧ r' ≠ []) := by
  rw [(heading_grammar_charact l).1]
  constructor
  · rintro ⟨k, w, t, hdecomp, hk1, hk6, hw, hws, ht, hterm⟩
    have hrun : l.takeWhile (fun c => c == '#') = List.replicate k '#' := by
      rw [hdecomp, List.append_assoc]
      exact hashRun_of_decomp k w t hw hws
    have hlen : (l.takeWhile (fun c => c == '#')).length = k := by
      rw [hrun, List.length_replicate]
    have hdropk : l.drop k = w ++ t := by
      have hdl := List.drop_left (List.replicate k '#') (w ++ t)
      rw [List.length_replicate] at hdl
      rw [hdecomp, List.append_assoc]
      exact hdl
    rcases w with _ | ⟨c, w'⟩
    · cases hw rfl
    · refine ⟨hlen ▸ hk1, hlen ▸ hk6, c, w' ++ t, ?_, hws c (List.mem_cons_self ..), ?_⟩
      · rw [hlen, hdropk, List.cons_append]
      · simp [ht]
  · rintro ⟨hk1, hk6, c, r', hdrop, hcw, hr'⟩
    refine ⟨(l.takeWhile (fun c => c == '#')).length, [c], r', ?_, hk1, hk6,
      (by simp), ?_, hr', ?_⟩
    · rw [List.append_assoc, List.singleton_append, ← hdrop, ← takeWhile_hash_repl,
        ← dropWhile_eq_drop (fun c => c == '#') l]
      exact (List.takeWhile_append_dropWhile ..).symm
    · intro x hx
      rcases List.mem_singleton.mp hx with rfl
      exact hcw
    · intro x hx
      refine hg x ?_
      have hx1 : x ∈ l.drop ((l.takeWhile (fun c => c == '#')).length) := by
        rw [hdrop]
        exact List.mem_cons_of_mem _ hx
      exact List.drop_subset _ _ hx1

theorem matchHeader_none_of_append (p q : List Char) (hg : goodLine (p ++ q))
    (hnone : matchHeader (p ++ q) = none) : matchHeader p = none := by
  cases hm : matchHeader p with
  | none => rfl
  | some v =>
    exfalso
    have hgp : goodLine p := fun c hc => hg c (List.mem_append.mpr (Or.inl hc))
    have hsome : (matchHeader p).isSome = true := by rw [hm]; rfl
    rw [matchHeader_isSome_clean p hgp] at hsome
    rcases hsome with ⟨hk1, hk6, c, r', hdrop, hcw, hr'⟩
    have hpq : (matchHeader (p ++ q)).isSome = true := by
      rw [matchHeader_isSome_clean (p ++ q) hg]
      have hdecomp : p ++ q =
          List.replicate ((p.takeWhile (fun c => c == '#')).length) '#' ++
            (c :: (r' ++ q)) := by
        conv_lhs => rw [show p = List.replicate ((p.takeWhile (fun c => c == '#')).length) '#' ++
          (c :: r') by
            rw [← hdrop, ← takeWhile_hash_repl, ← dropWhile_eq_drop (fun c => c == '#') p]
            exact (List.takeWhile_append_dropWhile ..).symm]
        rw [List.append_assoc, List.cons_append]
      have hrun : (p ++ q).takeWhile (fun c => c == '#') =
          List.replicate ((p.takeWhile (fun c => c == '#')).length) '#' := by
        rw [hdecomp]
        have := hashRun_of_decomp ((p.takeWhile (fun c => c == '#')).length)
          [c] (r' ++ q) (by simp)
          (by intro x hx; rcases List.mem_singleton.mp hx with rfl; exact hcw)
        rw [List.singleton_append] at this
        exact this
      have hlen : ((p ++ q).takeWhile (fun c => c == '#')).length =
          (p.takeWhile (fun c => c == '#')).length := by
        rw [hrun, List.length_replicate]
      refine ⟨hlen ▸ hk1, hlen ▸ hk6, c, r' ++ q, ?_, hcw, by simp [hr']⟩
      rw [hlen, hdecomp]
      have hdl := List.drop_left
        (List.replicate ((p.takeWhile (fun c => c == '#')).length) '#') (c :: (r' ++ q))
      rw [List.length_replicate] at hdl
      exact hdl
    rw [hnone] at hpq
    cases hpq

theorem matchHeader_wsLen_pos (l : List Char) (k : Nat) (cap : List Char)
    (hm : matchHeader l = some (k, cap)) :
    (l.drop ((l.takeWhile (fun c => c == '#')).length)).takeWhile isWS ≠ [] := by
  rw [matchHeader_eq] at hm
  split at hm
  · rw [Option.map_eq_some'] at hm
    rcases hm with ⟨cap', hcap', _⟩
    rcases seekCap_some_elim _ _ _ hcap' with ⟨j', hj1, hj2, _, _, _⟩
    intro habs
    rw [habs] at hj2
    simp at hj2
    omega
  · cases hm

theorem matchHeader_trimEnd (l : List Char) (hg : goodLine l) (k : Nat)
    (cap : List Char) (hm : matchHeader l = some (k, cap))
    (hne : trimCs cap ≠ []) :
    ∃ cap2, matchHeader (trimEndCs l) = some (k, cap2) ∧
      trimCs cap2 = trimCs cap := by
  rcases (heading_grammar_charact l).2 k cap hm with ⟨hrun, hk1, hk6, hcapeq⟩
  have hlK : (l.takeWhile (fun c => c == '#')).length = k := by
    rw [hrun, List.length_replicate]
  have hcapeq' : trimCs cap = trimCs (l.drop k) := hcapeq
  have hpostne : (l.drop k).dropWhile isWS ≠ [] := by
    intro habs
    have hall : ∀ c ∈ l.drop k, isWS c = true := by
      simpa using List.dropWhile_eq_nil_iff.mp habs
    exact hne (by rw [hcapeq', trim_of_all_ws _ hall])
  obtain ⟨c₀, post', hpost⟩ : ∃ c₀ post', (l.drop k).dropWhile isWS = c₀ :: post' := by
    cases hp : (l.drop k).dropWhile isWS with
    | nil => exact absurd hp hpostne
    | cons c₀ post' => exact ⟨c₀, post', rfl⟩
  have hc₀ : isWS c₀ = false := dropWhile_head_not _ _ _ _ hpost
  have hwsne : (l.drop k).takeWhile isWS ≠ [] := by
    have := matchHeader_wsLen_pos l k cap hm
    rwa [hlK] at this
  have hldecomp : l = List.replicate k '#' ++
      ((l.drop k).takeWhile isWS ++ (c₀ :: post')) := by
    conv_lhs => rw [← List.take_append_drop k l]
    congr 1
    · rw [← hlK, take_takeWhile_length, hrun, List.length_replicate]
    · rw [← hpost, List.takeWhile_append_dropWhile]
  have htep : trimEndCs (c₀ :: post') ≠ [] := by
    intro habs
    have := (trimEnd_eq_nil_iff _).mp habs c₀ (List.mem_cons_self ..)
    rw [this] at hc₀
    cases hc₀
  have hteq : trimEndCs l = List.replicate k '#' ++
      ((l.drop k).takeWhile isWS ++ trimEndCs (c₀ :: post')) := by
    conv_lhs => rw [hldecomp, ← List.append_assoc]
    rw [trimEnd_append, if_neg htep, List.append_assoc]
  obtain ⟨q, hq, hqws⟩ := trimEnd_decomp (c₀ :: post')
  obtain ⟨d', hd⟩ : ∃ d', trimEndCs (c₀ :: post') = c₀ :: d' := by
    cases hte : trimEndCs (c₀ :: post') with
    | nil => exact absurd hte htep
    | cons e d' =>
      rw [hte, List.cons_append] at hq
      injection hq with h1 h2
      exact ⟨d', by rw [h1]⟩
  have hsome2 : (matchHeader (trimEndCs l)).isSome = true := by
    rw [(heading_grammar_charact (trimEndCs l)).1]
    refine ⟨k, (l.drop k).takeWhile isWS, trimEndCs (c₀ :: post'),
      (by rw [List.append_assoc]; exact hteq), hk1, hk6,
      hwsne, (fun c hc => List.mem_takeWhile_imp hc), htep, ?_⟩
    intro c hc
    refine hg c ?_
    have hc1 : c ∈ c₀ :: post' := by
      rw [hq]
      exact List.mem_append.mpr (Or.inl hc)
    have hc2 : c ∈ (l.drop k).dropWhile isWS := by rw [hpost]; exact hc1
    have hc3 : c ∈ l.drop k := by
      rw [dropWhile_eq_drop] at hc2
      exact List.drop_subset _ _ hc2
    exact List.drop_subset _ _ hc3
  obtain ⟨⟨k2, cap2⟩, hm2⟩ := Option.isSome_iff_exists.mp hsome2
  rcases (heading_grammar_charact (trimEndCs l)).2 k2 cap2 hm2 with
    ⟨hrun2, _, _, hcapeq2⟩
  have hrun2' : (trimEndCs l).takeWhile (fun c => c == '#') =
      List.replicate k '#' := by
    rw [hteq]
    exact hashRun_of_decomp k _ _ hwsne (fun c hc => List.mem_takeWhile_imp hc)
  have hk2k : k2 = k := by
    have := hrun2.symm.trans hrun2'
    have hlen := congrArg List.length this
    rwa [List.length_replicate, List.length_replicate] at hlen
  subst hk2k
  refine ⟨cap2, hm2, ?_⟩
  have hdrop2 : (trimEndCs l).drop k2 =
      (l.drop k2).takeWhile isWS ++ trimEndCs (c₀ :: post') := by
    rw [hteq]
    have hdl := List.drop_left (List.replicate k2 '#')
      ((l.drop k2).takeWhile isWS ++ trimEndCs (c₀ :: post'))
    rw [List.length_replicate] at hdl
    exact hdl
  rw [hcapeq2, hdrop2, trim_append_ws_left _ _ (fun c hc => List.mem_takeWhile_imp hc)]
  rw [hcapeq']
  have hdropdecomp : l.drop k2 = (l.drop k2).takeWhile isWS ++ (c₀ :: post') := by
    rw [← hpost, List.takeWhile_append_dropWhile]
  rw [hdropdecomp, trim_append_ws_left _ _ (fun c hc => List.mem_takeWhile_imp hc)]
  have htr1 : trimCs (trimEndCs (c₀ :: post')) = trimEndCs (trimEndCs (c₀ :: post')) := by
    rw [hd]
    unfold trimCs
    rw [List.dropWhile_cons_of_neg (by simp [hc₀])]
  have htr2 : trimCs (c₀ :: post') = trimEndCs (c₀ :: post') := by
    unfold trimCs
    rw [List.dropWhile_cons_of_neg (by simp [hc₀])]
  rw [htr1, htr2, trimEnd_idem]

/-! Re-parsing the joined output of well-formed sections. -/

theorem matchHeader_nil : matchHeader [] = none := rfl

theorem no_nl_of_goodLine (l : List Char) (hg : goodLine l) : '\n' ∉ l := by
  intro habs
  exact absurd (hg '\n' habs) (by decide)

theorem no_nl_trimEnd (l : List Char) (hg : goodLine l) : '\n' ∉ trimEndCs l := by
  obtain ⟨q, hq, _⟩ := trimEnd_decomp l
  intro habs
  exact no_nl_of_goodLine l hg (by rw [hq]; exact List.mem_append.mpr (Or.inl habs))

theorem matchHeader_trimEnd_none (l : List Char) (hgl : goodLine l)
    (hml : matchHeader l = none) :
    ∀ l' ∈ splitOnNl (trimEndCs l), matchHeader l' = none := by
  intro l' hl'
  obtain ⟨q, hq, _⟩ := trimEnd_decomp l
  rw [splitOnNl_no_nl _ (no_nl_trimEnd l hgl)] at hl'
  rcases List.mem_singleton.mp hl' with rfl
  refine matchHeader_none_of_append _ q ?_ ?_
  · rw [← hq]; exact hgl
  · rw [← hq]; exact hml

theorem trimEnd_cons_nl (J : List Char) :
    trimEndCs ('\n' :: J) =
      if trimEndCs J = [] then [] else '\n' :: trimEndCs J := by
  have h := trimEnd_append ['\n'] J
  rw [List.singleton_append] at h
  rw [h]
  by_cases hJ : trimEndCs J = []
  · rw [if_pos hJ, if_pos hJ]
    decide
  · rw [if_neg hJ, if_neg hJ, List.singleton_append]

theorem nonmatch_lines_trimEnd_join : ∀ (ls : List (List Char)), ls ≠ [] →
    (∀ l ∈ ls, goodLine l ∧ matchHeader l = none) →
    ∀ l' ∈ splitOnNl (trimEndCs (joinNl ls)), matchHeader l' = none := by
  intro ls
  induction ls with
  | nil => intro hls; cases hls rfl
  | cons l ls ih =>
    intro _ h
    have hgl := (h l (List.mem_cons_self ..)).1
    have hml := (h l (List.mem_cons_self ..)).2
    cases ls with
    | nil => exact matchHeader_trimEnd_none l hgl hml
    | cons l2 ls2 =>
      intro l' hl'
      rw [show joinNl (l :: l2 :: ls2) = l ++ '\n' :: joinNl (l2 :: ls2) from rfl,
        trimEnd_append, trimEnd_cons_nl] at hl'
      by_cases hJ : trimEndCs (joinNl (l2 :: ls2)) = []
      · rw [if_pos hJ, if_pos rfl] at hl'
        exact matchHeader_trimEnd_none l hgl hml l' hl'
      · rw [if_neg hJ, if_neg (by intro habs; cases habs)] at hl'
        rw [splitOnNl_append_nl] at hl'
        rcases List.mem_append.mp hl' with h1 | h2
        · rw [splitOnNl_no_nl _ (no_nl_of_goodLine l hgl)] at h1
          rcases List.mem_singleton.mp h1 with rfl
          exact hml
        · exact ih (by simp) (fun x hx => h x (List.mem_cons_of_mem _ hx)) l' h2

theorem WF_of_buf (l₀ : List Char) (ls : List (List Char)) (k : Nat)
    (cap : List Char) (hg0 : goodLine l₀)
    (hgls : ∀ l ∈ ls, goodLine l ∧ matchHeader l = none)
    (hm0 : matchHeader l₀ = some (k, cap)) (hne : trimCs cap ≠ []) :
    WFSection ⟨trimCs cap, k, trimEndCs (joinNl (l₀ :: ls))⟩ := by
  refine ⟨hne, trimEnd_idem _, ?_⟩
  cases ls with
  | nil =>
    obtain ⟨cap2, hm2, hcap2⟩ := matchHeader_trimEnd l₀ hg0 k cap hm0 hne
    exact ⟨trimEndCs l₀, [], cap2,
      splitOnNl_no_nl _ (no_nl_trimEnd l₀ hg0), hm2, hcap2,
      (by intro l hl; cases hl)⟩
  | cons l2 ls2 =>
    rw [show joinNl (l₀ :: l2 :: ls2) = l₀ ++ '\n' :: joinNl (l2 :: ls2) from rfl,
      trimEnd_append, trimEnd_cons_nl]
    by_cases hJ : trimEndCs (joinNl (l2 :: ls2)) = []
    · rw [if_pos hJ, if_pos rfl]
      obtain ⟨cap2, hm2, hcap2⟩ := matchHeader_trimEnd l₀ hg0 k cap hm0 hne
      exact ⟨trimEndCs l₀, [], cap2,
        splitOnNl_no_nl _ (no_nl_trimEnd l₀ hg0), hm2, hcap2,
        (by intro l hl; cases hl)⟩
    · rw [if_neg hJ, if_neg (by intro habs; cases habs)]
      refine ⟨l₀, splitOnNl (trimEndCs (joinNl (l2 :: ls2))), cap, ?_, hm0, rfl, ?_⟩
      · rw [splitOnNl_append_nl, splitOnNl_no_nl _ (no_nl_of_goodLine l₀ hg0),
          List.singleton_append]
      · exact nonmatch_lines_trimEnd_join (l2 :: ls2) (by simp) hgls

theorem parseLoop_absorb : ∀ (ls : List (List Char)),
    (∀ l ∈ ls, matchHeader l = none) →
    ∀ (rest : List (List Char)) (h : List Char) (k : Nat) (buf : List (List Char)),
      parseLoop (ls ++ rest) ⟨h, k, buf, true⟩ =
        parseLoop rest ⟨h, k, buf ++ ls, true⟩ := by
  intro ls
  induction ls with
  | nil =>
    intro _ rest h k buf
    rw [List.append_nil]
    rfl
  | cons l ls ih =>
    intro hno rest h k buf
    have hl := hno l (List.mem_cons_self ..)
    calc parseLoop (l :: (ls ++ rest)) ⟨h, k, buf, true⟩
        = parseLoop (ls ++ rest) ⟨h, k, buf ++ [l], true⟩ := by rw [parseLoop, hl]; rfl
      _ = parseLoop rest ⟨h, k, (buf ++ [l]) ++ ls, true⟩ :=
          ih (fun x hx => hno x (List.mem_cons_of_mem _ hx)) rest h k (buf ++ [l])
      _ = parseLoop rest ⟨h, k, buf ++ l :: ls, true⟩ := by rw [← List.append_cons]

theorem joinNl_append_nil : ∀ (xs : List (List Char)), xs ≠ [] →
    joinNl (xs ++ [[]]) = joinNl xs ++ ['\n'] := by
  intro xs
  induction xs with
  | nil => intro h; cases h rfl
  | cons x xs ih =>
    intro _
    cases xs with
    | nil => rfl
    | cons y ys =>
      calc joinNl ((x :: y :: ys) ++ [[]])
          = x ++ '\n' :: joinNl ((y :: ys) ++ [[]]) := by
            rw [List.cons_append, List.cons_append]
            rfl
        _ = x ++ '\n' :: (joinNl (y :: ys) ++ ['\n']) := by rw [ih (by simp)]
        _ = (x ++ '\n' :: joinNl (y :: ys)) ++ ['\n'] := by simp

theorem content_rebuild (sec : Section) (hwf : WFSection sec) :
    trimEndCs (joinNl (splitOnNl sec.content ++ [[]])) = sec.content := by
  rw [joinNl_append_nil _ (splitOnNl_ne_nil _),
    trimEnd_append_ws _ _ (by intro c hc; rcases List.mem_singleton.mp hc with rfl; decide),
    joinNl_splitOnNl]
  exact hwf.2.1

theorem parseLoop_blocks : ∀ (S : List Section), (∀ σ ∈ S, WFSection σ) →
    ∀ (h : List Char) (k : Nat) (buf : List (List Char)), h ≠ [] →
      parseLoop (blocksOf S) ⟨h, k, buf, true⟩ =
        ⟨h, k, trimEndCs (joinNl buf)⟩ :: S := by
  intro S
  induction S with
  | nil =>
    intro _ h k buf hh
    have hie : h.isEmpty = false := by
      cases hq : h.isEmpty with
      | false => rfl
      | true => exact absurd (List.isEmpty_iff.mp hq) hh
    show parseLoop [] _ = _
    rw [parseLoop, if_pos (by simp [hie])]
  | cons σ S' ih =>
    intro hwf h k buf hh
    have hwfσ := hwf σ (List.mem_cons_self ..)
    obtain ⟨hσh, hσst, l₀, ls, cap, hsplit, hm0, hcap, hls⟩ := hwfσ
    have hnonmatch : ∀ l ∈ ls ++ [[]], matchHeader l = none := by
      intro l hl
      rcases List.mem_append.mp hl with h1 | h2
      · exact hls l h1
      · rcases List.mem_singleton.mp h2 with rfl
        exact matchHeader_nil
    calc parseLoop (blocksOf (σ :: S')) ⟨h, k, buf, true⟩
        = parseLoop (l₀ :: ((ls ++ [[]]) ++ blocksOf S')) ⟨h, k, buf, true⟩ := by
          show parseLoop ((splitOnNl σ.content ++ [[]]) ++ blocksOf S') _ = _
          rw [hsplit, List.cons_append, List.cons_append, List.append_assoc]
      _ = ⟨h, k, trimEndCs (joinNl buf)⟩ ::
            parseLoop ((ls ++ [[]]) ++ blocksOf S') ⟨trimCs cap, σ.level, [l₀], true⟩ := by
          rw [parseLoop, hm0]; rfl
      _ = ⟨h, k, trimEndCs (joinNl buf)⟩ ::
            parseLoop (blocksOf S') ⟨trimCs cap, σ.level, [l₀] ++ (ls ++ [[]]), true⟩ := by
          rw [parseLoop_absorb (ls ++ [[]]) hnonmatch]
      _ = ⟨h, k, trimEndCs (joinNl buf)⟩ ::
            parseLoop (blocksOf S') ⟨σ.header, σ.level, (l₀ :: ls) ++ [[]], true⟩ := by
          rw [hcap, List.singleton_append, List.cons_append]
      _ = ⟨h, k, trimEndCs (joinNl buf)⟩ ::
            (⟨σ.header, σ.level, trimEndCs (joinNl ((l₀ :: ls) ++ [[]]))⟩ :: S') := by
          rw [ih (fun t ht => hwf t (List.mem_cons_of_mem _ ht)) σ.header σ.level _ hσh]
      _ = ⟨h, k, trimEndCs (joinNl buf)⟩ :: (σ :: S') := by
          rw [← hsplit, content_rebuild σ ⟨hσh, hσst, l₀, ls, cap, hsplit, hm0, hcap, hls⟩]

theorem blocksOf_contentsJoin : ∀ (S : List Section) (sec : Section),
    splitOnNl (contentsJoin ((sec :: S).map Section.content) ++ ['\n']) =
      blocksOf (sec :: S) := by
  intro S
  induction S with
  | nil =>
    intro sec
    show splitOnNl (sec.content ++ '\n' :: []) = (splitOnNl sec.content ++ [[]]) ++ []
    rw [splitOnNl_append_nl, List.append_nil]
    rfl
  | cons sec2 S' ih =>
    intro sec
    show splitOnNl ((sec.content ++ '\n' :: '\n' ::
        contentsJoin ((sec2 :: S').map Section.content)) ++ ['\n']) = _
    rw [List.append_assoc, List.cons_append, List.cons_append, splitOnNl_append_nl]
    show _ = (splitOnNl sec.content ++ [[]]) ++ blocksOf (sec2 :: S')
    rw [← ih sec2]
    rw [show ('\n' :: (contentsJoin ((sec2 :: S').map Section.content) ++ ['\n'])) =
      [] ++ '\n' :: (contentsJoin ((sec2 :: S').map Section.content) ++ ['\n']) from rfl]
    rw [splitOnNl_append_nl]
    rw [List.append_assoc]
    rfl

theorem parse_contentsJoin (S : List Section) (hwf : ∀ σ ∈ S, WFSection σ) :
    parseSectionsCs (contentsJoin (S.map Section.content) ++ ['\n']) = S := by
  cases S with
  | nil => decide
  | cons σ S' =>
    have hwfσ := hwf σ (List.mem_cons_self ..)
    obtain ⟨hσh, hσst, l₀, ls, cap, hsplit, hm0, hcap, hls⟩ := hwfσ
    have hnonmatch : ∀ l ∈ ls ++ [[]], matchHeader l = none := by
      intro l hl
      rcases List.mem_append.mp hl with h1 | h2
      · exact hls l h1
      · rcases List.mem_singleton.mp h2 with rfl
        exact matchHeader_nil
    unfold parseSectionsCs
    rw [blocksOf_contentsJoin]
    calc parseLoop (blocksOf (σ :: S')) ⟨[], 0, [], false⟩
        = parseLoop (l₀ :: ((ls ++ [[]]) ++ blocksOf S')) ⟨[], 0, [], false⟩ := by
          show parseLoop ((splitOnNl σ.content ++ [[]]) ++ blocksOf S') _ = _
          rw [hsplit, List.cons_append, List.cons_append, List.append_assoc]
      _ = parseLoop ((ls ++ [[]]) ++ blocksOf S') ⟨trimCs cap, σ.level, [l₀], true⟩ := by
          rw [parseLoop, hm0]; rfl
      _ = parseLoop (blocksOf S') ⟨trimCs cap, σ.level, [l₀] ++ (ls ++ [[]]), true⟩ := by
          rw [parseLoop_absorb (ls ++ [[]]) hnonmatch]
      _ = parseLoop (blocksOf S') ⟨σ.header, σ.level, (l₀ :: ls) ++ [[]], true⟩ := by
          rw [hcap, List.singleton_append, List.cons_append]
      _ = ⟨σ.header, σ.level, trimEndCs (joinNl ((l₀ :: ls) ++ [[]]))⟩ :: S' := by
          rw [parseLoop_blocks S' (fun t ht => hwf t (List.mem_cons_of_mem _ ht))
            σ.header σ.level _ hσh]
      _ = σ :: S' := by
          rw [← hsplit, content_rebuild σ ⟨hσh, hσst, l₀, ls, cap, hsplit, hm0, hcap, hls⟩]

/-! Well-formedness of the sections the parser produces on clean input. -/

theorem parseLoop_WF : ∀ (lines : List (List Char)) (st : PState),
    (∀ l ∈ lines, goodLine l) →
    (st.inSec = false → st.header = []) →
    (st.inSec = true → ∃ l₀ ls cap, st.buf = l₀ :: ls ∧ goodLine l₀ ∧
      (∀ l ∈ ls, goodLine l ∧ matchHeader l = none) ∧
      matchHeader l₀ = some (st.level, cap) ∧ trimCs cap = st.header) →
    ∀ σ ∈ parseLoop lines st, σ.header ≠ [] → WFSection σ := by
  intro lines
  induction lines with
  | nil =>
    intro st _ hfalse htrue σ hσ hσne
    rw [parseLoop] at hσ
    split at hσ
    · rename_i hcond
      rcases List.mem_singleton.mp hσ with rfl
      have hsec : st.inSec = true := (Bool.and_eq_true _ _ |>.mp hcond).1
      obtain ⟨l₀, ls, cap, hbuf, hg0, hgls, hm0, hcap⟩ := htrue hsec
      have hσne' : trimCs cap ≠ [] := by rw [hcap]; exact hσne
      have hwf := WF_of_buf l₀ ls st.level cap hg0 hgls hm0 hσne'
      rw [hcap] at hwf
      rw [hbuf]
      exact hwf
    · cases hσ
  | cons line rest ih =>
    intro st hg hfalse htrue σ hσ hσne
    have hgrest : ∀ l ∈ rest, goodLine l := fun l hl => hg l (List.mem_cons_of_mem _ hl)
    rw [parseLoop] at hσ
    cases hm : matchHeader line with
    | some kc =>
      obtain ⟨k, cap⟩ := kc
      rw [hm] at hσ
      dsimp only at hσ
      rcases List.mem_append.mp hσ with hpush | hrec
      · split at hpush
        · rename_i hcond
          rcases List.mem_singleton.mp hpush with rfl
          cases hsec : st.inSec with
          | false =>
            exact absurd (hfalse hsec) hσne
          | true =>
            obtain ⟨l₀, ls, cap', hbuf, hg0, hgls, hm0, hcap⟩ := htrue hsec
            have hσne' : trimCs cap' ≠ [] := by rw [hcap]; exact hσne
            have hwf := WF_of_buf l₀ ls st.level cap' hg0 hgls hm0 hσne'
            rw [hcap] at hwf
            rw [hbuf]
            exact hwf
        · cases hpush
      · refine ih _ hgrest (fun habs => by cases habs) ?_ σ hrec hσne
        intro _
        exact ⟨line, [], cap, rfl, hg line (List.mem_cons_self ..),
          (fun l hl => by cases hl), hm, rfl⟩
    | none =>
      rw [hm] at hσ
      dsimp only at hσ
      by_cases hsec : st.inSec = true
      · rw [if_pos hsec] at hσ
        refine ih _ hgrest (fun habs => by rw [hsec] at habs; cases habs) ?_ σ hσ hσne
        intro _
        obtain ⟨l₀, ls, cap, hbuf, hg0, hgls, hm0, hcap⟩ := htrue hsec
        refine ⟨l₀, ls ++ [line], cap, ?_, hg0, ?_, hm0, hcap⟩
        · show st.buf ++ [line] = _
          rw [hbuf, List.cons_append]
        · intro l hl
          rcases List.mem_append.mp hl with h1 | h2
          · exact hgls l h1
          · have heq := List.mem_singleton.mp h2
            rw [heq]
            exact ⟨hg line (List.mem_cons_self ..), hm⟩
      · rw [if_neg hsec] at hσ
        exact ih _ hgrest hfalse htrue σ hσ hσne

theorem parse_sections_WF (cs : List Char) (hc : cleanChars cs = true) :
    ∀ σ ∈ parseSectionsCs cs, σ.header ≠ [] → WFSection σ := by
  refine parseLoop_WF (splitOnNl cs) _ ?_ (fun _ => rfl) (fun habs => by cases habs)
  intro l hl c hcl
  rcases mem_splitOnNl cs l hl with ⟨hnl, hsub⟩
  have hcall := List.all_eq_true.mp hc c (hsub c hcl)
  have hcne : (c == '\n') = false := by
    cases hq : c == '\n' with
    | false => rfl
    | true =>
      have hce : c = '\n' := by simpa using hq
      rw [hce] at hcl
      exact absurd hcl hnl
  rw [hcne] at hcall
  simpa using hcall

/-! The merged section list round-trips through the parser. -/

theorem preserved_ne_nil (h : List Char)
    (hc : PRESERVED_SECTIONS.contains h = true) : h ≠ [] := by
  have hmem : h = aboutH ∨ h = todosH ∨ h = archH := by
    have hm : h ∈ PRESERVED_SECTIONS := by simpa using hc
    simpa [PRESERVED_SECTIONS] using hm
  rcases hmem with rfl | rfl | rfl <;> decide

theorem mergeStep_header (ecs : List Char) (ns : Section) :
    (if PRESERVED_SECTIONS.contains ns.header then
      match lookupHeader (parseSectionsCs ecs) ns.header with
      | some ex => ex
      | none => ns
     else ns).header = ns.header := by
  by_cases hp : PRESERVED_SECTIONS.contains ns.header = true
  · rw [if_pos hp]
    cases hl : lookupHeader (parseSectionsCs ecs) ns.header with
    | some ex => exact (lookupHeader_mem hl).2
    | none => rfl
  · rw [if_neg hp]

theorem mergeSections_headers (ecs ncs : List Char) :
    (mergeSections ecs ncs).map Section.header =
      (parseSectionsCs ncs).map Section.header := by
  rw [mergeSections_eq_map, List.map_map]
  refine List.map_congr_left fun ns _ => ?_
  show (if PRESERVED_SECTIONS.contains ns.header then _ else ns).header = ns.header
  exact mergeStep_header ecs ns

theorem mergeSections_WF (e n : List Char) (hce : cleanChars e = true)
    (hcn : cleanChars n = true)
    (hhn : ∀ σ ∈ parseSectionsCs n, σ.header ≠ []) :
    ∀ σ ∈ mergeSections e n, WFSection σ := by
  intro σ hσ
  rw [mergeSections_eq_map] at hσ
  rcases List.mem_map.mp hσ with ⟨ns, hns, heq⟩
  subst heq
  by_cases hp : PRESERVED_SECTIONS.contains ns.header = true
  · rw [if_pos hp]
    cases hl : lookupHeader (parseSectionsCs e) ns.header with
    | some ex =>
      have hmem := lookupHeader_mem hl
      exact parse_sections_WF e hce ex hmem.1
        (by rw [hmem.2]; exact preserved_ne_nil _ hp)
    | none => exact parse_sections_WF n hcn ns hns (hhn ns hns)
  · rw [if_neg hp]
    exact parse_sections_WF n hcn ns hns (hhn ns hns)

theorem parse_mergeCs (e n : List Char) (hce : cleanChars e = true)
    (hcn : cleanChars n = true)
    (hhn : ∀ σ ∈ parseSectionsCs n, σ.header ≠ []) :
    parseSectionsCs (mergeCs e n) = mergeSections e n := by
  show parseSectionsCs
    (contentsJoin ((mergeSections e n).map Section.content) ++ ['\n']) = _
  exact parse_contentsJoin _ (mergeSections_WF e n hce hcn hhn)

/-- Claim C3 (amended): when neither input contains a carriage return or
Unicode line/paragraph separator and every section of the new document has a
non-empty header, the section headers of the parsed merge output equal, in
order, the headers of the new document; and every new section whose header
is not preserved is emitted unchanged at its position. -/
theorem merge_header_order (e n : String)
    (hce : cleanChars e.data = true) (hcn : cleanChars n.data = true)
    (hhn : ∀ σ ∈ parseSectionsCs n.data, σ.header ≠ []) :
    (parseSections (merge e n)).map Section.header =
      (parseSectionsCs n.data).map Section.header
    ∧ ∀ (i : Nat) (ns : Section), (parseSectionsCs n.data)[i]? = some ns →
        PRESERVED_SECTIONS.contains ns.header = false →
        (mergeSections e.data n.data)[i]? = some ns := by
  constructor
  · show (parseSectionsCs (mergeCs e.data n.data)).map Section.header = _
    rw [parse_mergeCs e.data n.data hce hcn hhn, mergeSections_headers]
  · intro i ns hns hp
    rw [mergeSections_eq_map, List.getElem?_map, hns, Option.map_some']
    rw [if_neg (by rw [hp]; simp)]

/-- Witness for C3 at concrete documents. -/
theorem merge_header_order_witness :
    (parseSections (merge "## Alpha\na" "## Beta\nb\n\n## Alpha\nnew")).map Section.header =
      (parseSectionsCs ("## Beta\nb\n\n## Alpha\nnew" : String).data).map Section.header ∧
    (mergeSections ("## Alpha\na" : String).data
        ("## Beta\nb\n\n## Alpha\nnew" : String).data)[0]? =
      some ⟨"Beta".data, 2, "## Beta\nb".data⟩ :=
  ⟨(merge_header_order "## Alpha\na" "## Beta\nb\n\n## Alpha\nnew"
      (by decide) (by decide) (by decide)).1,
   (merge_header_order "## Alpha\na" "## Beta\nb\n\n## Alpha\nnew"
      (by decide) (by decide) (by decide)).2 0
      ⟨"Beta".data, 2, "## Beta\nb".data⟩ (by decide) (by decide)⟩

/-- Counterexample for C3 as stated: a new document containing a heading
line with an all-whitespace title (`"#  "`), whose parsed section has an
empty header, is not re-parseable, so the merged output's header sequence
differs from the new document's. -/
theorem merge_header_order_cex :
    (parseSections (merge "" "#  \n# A")).map Section.header ≠
      (parseSections "#  \n# A").map Section.header := by decide

/-- Claim C7 (amended): under the same conditions as C3, parsing the merged
output yields exactly the sections merge selected, and joining their
contents with one blank line and a trailing newline reproduces the merged
document byte for byte. -/
theorem merge_parse_roundtrip (e n : String)
    (hce : cleanChars e.data = true) (hcn : cleanChars n.data = true)
    (hhn : ∀ σ ∈ parseSectionsCs n.data, σ.header ≠ []) :
    parseSections (merge e n) = mergeSections e.data n.data
    ∧ (merge e n).data =
        contentsJoin ((parseSections (merge e n)).map Section.content) ++ ['\n'] := by
  have h1 : parseSectionsCs (mergeCs e.data n.data) = mergeSections e.data n.data :=
    parse_mergeCs e.data n.data hce hcn hhn
  refine ⟨h1, ?_⟩
  show mergeCs e.data n.data = _
  rw [show parseSections (merge e n) = parseSectionsCs (mergeCs e.data n.data) from rfl,
    h1]
  rfl

/-- Witness for C7 at concrete documents with a preserved section. -/
theorem merge_parse_roundtrip_witness :
    parseSections (merge "## About This Project\nmine"
        "## About This Project\ntheirs\n\n## Use\nfresh") =
      mergeSections ("## About This Project\nmine" : String).data
        ("## About This Project\ntheirs\n\n## Use\nfresh" : String).data ∧
    (merge "## About This Project\nmine"
        "## About This Project\ntheirs\n\n## Use\nfresh").data =
      contentsJoin ((parseSections (merge "## About This Project\nmine"
        "## About This Project\ntheirs\n\n## Use\nfresh")).map Section.content) ++ ['\n'] :=
  merge_parse_roundtrip "## About This Project\nmine"
    "## About This Project\ntheirs\n\n## Use\nfresh" (by decide) (by decide) (by decide)

/-- Counterexample for C7 as stated: with an empty-header section in the new
document, re-joining the parsed merge output does not reproduce it. -/
theorem merge_parse_roundtrip_cex :
    contentsJoin ((parseSections (merge "" "#\t\t\n# B")).map Section.content) ++ ['\n'] ≠
      (merge "" "#\t\t\n# B").data ∧
    parseSections (merge "" "#\t\t\n# B") ≠
      mergeSections ("" : String).data ("#\t\t\n# B" : String).data := by
  exact ⟨by decide, by decide⟩

end FlightDispatcher
